import Mathlib

/-!
Verification of the token-mill bonding-curve market (`src/programs/token-mill/src/state/market_v1.rs`)
against its natural-language specification.

Shallow embedding conventions:
* `u64`/`u128` values are `Nat`; every Rust operation that can overflow, underflow or
  divide by zero is made explicit.  Rust arithmetic that panics under
  `overflow-checks = true` (the standard configuration for Anchor programs) is modelled
  as `Except.error Err.panicked`; a panic is observably distinct from the program's own
  `TokenMillError` codes.
* `u64::try_from` / `usize::try_from` failures propagate through `?` as the program's
  `MathError` code (spec section 7: `MathError` covers failed narrowing conversions).
* The fixed-point helpers `div` and `mul_div`, the inversion solver `get_delta_base_in`,
  the global constants and the error enum live in repository files that are not part of
  the excerpt; they are modelled from the spec (sections 4.1 and 7) and marked as such.
  The constants carry no numeric values in the spec, so they are parameters (`Consts`)
  and theorems quantify over them.
* Price tables are `List Nat`; a well-formed market has lists of length
  `PRICES_LENGTH = INTERVAL_NUMBER + 1`.  Indexing is bounds-checked (Rust array
  indexing panics out of bounds).
-/

namespace TokenMill

/-- Rounding mode of the fixed-point helpers (spec section 4.1):
`Down` truncates, `Up` rounds any nonzero remainder away from zero. -/
inductive Rounding
  | Down
  | Up
deriving Repr, DecidableEq

/-- Swap direction (`manager::swap_manager::SwapAmountType`). -/
inductive SwapAmountType
  | ExactInput
  | ExactOutput
deriving Repr, DecidableEq

/-- Failure outcomes.  The first seven are the `TokenMillError` codes named by the spec
(section 7); `panicked` models a Rust arithmetic/indexing panic (transaction abort),
which is not a `TokenMillError` code. -/
inductive Err
  | InvalidTotalSupply
  | PricesAlreadySet
  | BidAskMismatch
  | DecreasingPrices
  | PriceTooHigh
  | MathError
  | NetSOLThreshold
  | panicked
deriving Repr, DecidableEq

/-- Modelled from the spec: the global constants (`constant.rs` is not in the excerpt).
The spec gives no numeric values (only `MAX_BPS = 10000`, defined separately), so they
are parameters; theorems state the positivity assumptions they need. -/
structure Consts where
  INTERVAL_NUMBER : Nat
  SCALE : Nat
  BASE_PRECISION : Nat
  MAX_PRICE : Nat
  MAX_TOTAL_SUPPLY : Nat
deriving Repr, DecidableEq

/-- The price tables have one entry per interval boundary (spec section 3:
sequences of N+1 prices for N intervals). -/
def Consts.PRICES_LENGTH (C : Consts) : Nat := C.INTERVAL_NUMBER + 1

/-- Modelled from the spec: basis-point denominator, `MAX_BPS = 10000`. -/
def MAX_BPS : Nat := 10000

/-- Bound of `u64`. -/
def U64 : Nat := 2 ^ 64

/-- Bound of `u128`. -/
def U128 : Nat := 2 ^ 128

/-- A `u64` arithmetic result: Rust panics when it exceeds the width. -/
def chkU64 (x : Nat) : Except Err Nat :=
  if x < U64 then .ok x else .error .panicked

/-- A `u128` arithmetic result: Rust panics when it exceeds the width. -/
def chkU128 (x : Nat) : Except Err Nat :=
  if x < U128 then .ok x else .error .panicked

/-- Rust unsigned subtraction: panics on underflow. -/
def subChk (a b : Nat) : Except Err Nat :=
  if b ≤ a then .ok (a - b) else .error .panicked

/-- Rust `/` on unsigned integers: panics when the divisor is zero. -/
def natDivChk (a b : Nat) : Except Err Nat :=
  if b = 0 then .error .panicked else .ok (a / b)

/-- `u64::try_from` / `usize::try_from` followed by `?`: a failed narrowing becomes the
`MathError` code (spec section 7). -/
def tryFromU64 (x : Nat) : Except Err Nat :=
  if x < U64 then .ok x else .error .MathError

/-- `Option::ok_or(TokenMillError::MathError)`. -/
def okOrMathError (o : Option Nat) : Except Err Nat :=
  match o with
  | some v => .ok v
  | none => .error .MathError

/-- Rounded division: `Down` truncates, `Up` rounds any nonzero remainder away from
zero (spec section 4.1). -/
def rdiv (n d : Nat) : Rounding → Nat
  | .Down => n / d
  | .Up => (n + d - 1) / d

/-- Modelled from the spec (section 4.1, `math.rs` is not in the excerpt):
`div(numerator, denominator, rounding)` computes the rounded quotient, failing with
`MathError` on division by zero or when narrowing the result back to native (u64)
width fails. -/
def div (n d : Nat) (r : Rounding) : Except Err Nat :=
  if d = 0 then .error .MathError
  else if rdiv n d r < U64 then .ok (rdiv n d r) else .error .MathError

/-- Modelled from the spec (section 4.1): `mul_div(a, b, c, rounding)` computes
`round(a*b/c)` using double-width intermediates, returning `none` on division by zero
or when the result does not fit back into `u128` (the call site converts `none` to
`MathError`). -/
def mul_div (a b c : Nat) (r : Rounding) : Option Nat :=
  if c = 0 then none
  else if rdiv (a * b) c r < U128 then some (rdiv (a * b) c r) else none

instance {ε α : Type} [DecidableEq ε] [DecidableEq α] : DecidableEq (Except ε α) :=
  fun x y =>
    match x, y with
    | .ok a, .ok b =>
      if h : a = b then isTrue (by rw [h]) else isFalse (by simp [h])
    | .error a, .error b =>
      if h : a = b then isTrue (by rw [h]) else isFalse (by simp [h])
    | .ok _, .error _ => isFalse (by simp)
    | .error _, .ok _ => isFalse (by simp)

/-- Bounds-checked array indexing (Rust slice indexing panics out of bounds). -/
def arrGet (l : List Nat) (i : Nat) : Except Err Nat :=
  if i < l.length then .ok (l.getD i 0) else .error .panicked

/-- `MarketFees` (market_v1.rs lines 12-23); padding omitted. -/
structure MarketFees where
  staking_fee_share : Nat
  creator_fee_share : Nat
  pending_staking_fees : Nat
  pending_creator_fees : Nat
  referral_fee_share : Nat
  referral_enabled : Bool
deriving Repr, DecidableEq

/-- `Market` (market_v1.rs lines 25-42).  The four `Pubkey` identity fields, the bump
and the padding play no role in any claim and are omitted; all arithmetic fields are
kept. -/
structure Market where
  base_reserve : Nat
  bid_prices : List Nat
  ask_prices : List Nat
  width_scaled : Nat
  total_supply : Nat
  fees : MarketFees
  quote_token_decimals : Nat
  airdrop_ledger : Nat
deriving Repr, DecidableEq

/-- `Market::are_prices_set` (lines 119-121): final ask entry nonzero. -/
def Market.are_prices_set (C : Consts) (m : Market) : Bool :=
  m.ask_prices.getD C.INTERVAL_NUMBER 0 ≠ 0

/-- `Market::circulating_supply` (lines 123-125): `total_supply - base_reserve`.
The Rust `u64` subtraction would panic when `base_reserve > total_supply`; that state
is unreachable through the API and theorems that depend on the value carry
`base_reserve ≤ total_supply`, so plain truncated subtraction is used. -/
def Market.circulating_supply (m : Market) : Nat :=
  m.total_supply - m.base_reserve

/-- `Market::initialize` (lines 46-85), restricted to the fields the model keeps.
The width is `u64::try_from((total_supply / INTERVAL_NUMBER) * SCALE / BASE_PRECISION)`;
the `u128` product is overflow-checked and the narrowing failure is `MathError`. -/
def Market.initialize (C : Consts) (m : Market) (quote_token_decimals total_supply
    creator_fee_share staking_fee_share referral_fee_share : Nat) : Except Err Market :=
  if total_supply > C.MAX_TOTAL_SUPPLY
      ∨ total_supply / C.INTERVAL_NUMBER < C.BASE_PRECISION
      ∨ (total_supply / C.INTERVAL_NUMBER) * C.INTERVAL_NUMBER ≠ total_supply then
    .error .InvalidTotalSupply
  else do
    let prod ← chkU128 ((total_supply / C.INTERVAL_NUMBER) * C.SCALE)
    let w ← tryFromU64 (prod / C.BASE_PRECISION)
    .ok { m with
          quote_token_decimals := quote_token_decimals
          total_supply := total_supply
          base_reserve := total_supply
          width_scaled := w
          fees := { m.fees with
                    creator_fee_share := creator_fee_share
                    staking_fee_share := staking_fee_share
                    referral_fee_share := referral_fee_share
                    referral_enabled := true }
          airdrop_ledger := 0 }

/-- The per-index validation scan of `Market::check_and_set_prices` (lines 96-107):
`i` is the current index, the second argument counts the indices still to check.
At each index the `bid > ask` check runs before the monotonicity check. -/
def check_prices_from (bid ask : List Nat) : Nat → Nat → Except Err Unit
  | _, 0 => .ok ()
  | i, k + 1 =>
    let b := bid.getD i 0
    let a := ask.getD i 0
    if b > a then .error .BidAskMismatch
    else if i > 0 ∧ (a ≤ ask.getD (i - 1) 0 ∨ b ≤ bid.getD (i - 1) 0) then
      .error .DecreasingPrices
    else check_prices_from bid ask (i + 1) k

/-- `Market::check_and_set_prices` (lines 87-117).  The input arrays are fixed-size
`[u64; PRICES_LENGTH]` in Rust, so indexing cannot fail; lists stand in for them and
`getD` mirrors total indexing. -/
def Market.check_and_set_prices (C : Consts) (m : Market) (bid ask : List Nat) :
    Except Err Market :=
  if m.are_prices_set C then .error .PricesAlreadySet
  else do
    check_prices_from bid ask 0 C.PRICES_LENGTH
    if ask.getD C.INTERVAL_NUMBER 0 > C.MAX_PRICE then .error .PriceTooHigh
    else .ok { m with bid_prices := bid, ask_prices := ask }

/-- `Market::lock_liquidity` (lines 341-354): zeroes `base_reserve`. -/
def Market.lock_liquidity (m : Market) : Except Err Market :=
  .ok { m with base_reserve := 0 }

/-- `Market::disable_bonding_curve` (lines 356-362): zeroes `width_scaled`. -/
def Market.disable_bonding_curve (m : Market) : Except Err Market :=
  .ok { m with width_scaled := 0 }

/-- `Market::payout_creator` (lines 364-373): the body is pseudo-code that performs no
state change and returns `Ok(())`; the transfer goes to an external collaborator. -/
def Market.payout_creator (m : Market) (_amount : Nat) : Except Err Market :=
  .ok m

/-- `Market::migrate_to_raydium` (lines 329-339): lock liquidity, disable the bonding
curve, pay the creator 200, then disable referrals — in that order. -/
def Market.migrate_to_raydium (m : Market) : Except Err Market := do
  let m1 ← m.lock_liquidity
  let m2 ← m1.disable_bonding_curve
  let m3 ← m2.payout_creator 200
  .ok { m3 with fees := { m3.fees with referral_enabled := false } }

/-- `Market::check_threshold_and_migrate` (lines 317-327).  The band check runs before
anything else; `total_supply * 80` is a `u64` product (panics on overflow). -/
def Market.check_threshold_and_migrate (m : Market) (net_sol : Nat) :
    Except Err Market :=
  if net_sol < 60000 ∨ net_sol > 63000 then .error .NetSOLThreshold
  else do
    let p ← chkU64 (m.total_supply * 80)
    if m.circulating_supply ≥ p / 100 then m.migrate_to_raydium
    else .ok m

/-- `Market::distribute_fee` (lines 375-404).  Each share product is a `u128` multiply
narrowed back to `u64` by `try_from` (`MathError` on failure); the protocol fee is an
unchecked chain of `u64` subtractions (panics on underflow); the pending accumulators
are unchecked `u64` additions (panic on overflow). Returns the four-way split
`(creator, staking, protocol, referral)` together with the updated market. -/
def Market.distribute_fee (m : Market) (swap_fee : Nat) :
    Except Err ((Nat × Nat × Nat × Nat) × Market) :=
  (if m.fees.referral_enabled then
      tryFromU64 (swap_fee * m.fees.referral_fee_share / MAX_BPS)
    else .ok 0) >>= fun referral_fee => do
  let creator_fee ← tryFromU64 (swap_fee * m.fees.creator_fee_share / MAX_BPS)
  let staking_fee ← tryFromU64 (swap_fee * m.fees.staking_fee_share / MAX_BPS)
  let t1 ← subChk swap_fee creator_fee
  let t2 ← subChk t1 staking_fee
  let protocol_fee ← subChk t2 referral_fee
  let pc ← chkU64 (m.fees.pending_creator_fees + creator_fee)
  let ps ← chkU64 (m.fees.pending_staking_fees + staking_fee)
  .ok ((creator_fee, staking_fee, protocol_fee, referral_fee),
    { m with fees := { m.fees with pending_creator_fees := pc, pending_staking_fees := ps } })

/-- `Market::add_airdrop` (lines 406-413). -/
def Market.add_airdrop (m : Market) (amount : Nat) : Except Err Market := do
  let l ← chkU64 (m.airdrop_ledger + amount)
  .ok { m with airdrop_ledger := l }

/-- The interval walk of `Market::get_quote_amount_with_parameters` (lines 167-191).
`fuel` is structural; call sites pass `PRICES_LENGTH`, which exceeds the number of
remaining intervals, so the `fuel = 0` truncation is never taken with the loop
condition still true.  State: current index `i`, previous boundary price `p0`,
already-used width of the current interval `used`, remaining normalized base `bl`,
accumulated normalized quote `qa`. -/
def gq_loop (C : Consts) (pc : List Nat) (ws : Nat) (r : Rounding) :
    Nat → Nat → Nat → Nat → Nat → Nat → Except Err (Nat × Nat)
  | 0, _i, _p0, _used, bl, qa => .ok (bl, qa)
  | fuel + 1, i, p0, used, bl, qa =>
    if bl > 0 ∧ i < C.PRICES_LENGTH then do
      let p1 ← arrGet pc i
      let db := min bl (ws - used)
      let pd ← subChk p1 p0
      let factor ← chkU128 (pd * (db + 2 * used) + 2 * p0 * ws)
      let den ← chkU128 (2 * C.SCALE * ws)
      let dq ← okOrMathError (mul_div db factor den r)
      let qa' ← chkU128 (qa + dq)
      gq_loop C pc ws r fuel (i + 1) p1 0 (bl - db) qa'
    else .ok (bl, qa)

/-- `Market::get_quote_amount_with_parameters` (lines 142-207).
The division `normalized_supply / width_scaled` is a raw `u128` division: it panics
when `width_scaled = 0` (the post-migration state); the `usize::try_from` around it
fails with `MathError`. -/
def Market.get_quote_amount_with_parameters (C : Consts) (m : Market)
    (supply base_amount : Nat) (t : SwapAmountType) (r : Rounding) :
    Except Err (Nat × Nat) := do
  let pc := match t with
    | .ExactInput => m.bid_prices
    | .ExactOutput => m.ask_prices
  let t1 ← chkU128 (supply * C.SCALE)
  let ns := t1 / C.BASE_PRECISION
  let t2 ← chkU128 (base_amount * C.SCALE)
  let nb := t2 / C.BASE_PRECISION
  let iRaw ← natDivChk ns m.width_scaled
  let i ← tryFromU64 iRaw
  let used := ns % m.width_scaled
  let p0 ← arrGet pc i
  let res ← gq_loop C pc m.width_scaled r C.PRICES_LENGTH (i + 1) p0 used nb 0
  let t3 ← chkU128 (res.1 * C.BASE_PRECISION)
  let d3 ← div t3 C.SCALE r
  let bs ← subChk base_amount d3
  let t4 ← chkU128 (res.2 * 10 ^ m.quote_token_decimals)
  let qs ← div t4 C.SCALE r
  .ok (bs, qs)

/-- `Market::get_quote_amount` (lines 127-140).  `ExactInput` performs the unchecked
`u64` subtraction `circulating_supply - base_amount` (panics on underflow) and rounds
`Down`; `ExactOutput` starts from the circulating supply and rounds `Up`. -/
def Market.get_quote_amount (C : Consts) (m : Market) (base_amount : Nat)
    (t : SwapAmountType) : Except Err (Nat × Nat) :=
  let cs := m.circulating_supply
  match t with
  | .ExactInput => do
      let supply ← subChk cs base_amount
      m.get_quote_amount_with_parameters C supply base_amount t .Down
  | .ExactOutput =>
      m.get_quote_amount_with_parameters C cs base_amount t .Up

/-- Fuel-driven binary search for the integer square root: maintains `lo * lo ≤ n`
and halves `[lo, hi]` each step.  Structural recursion keeps it kernel-reducible,
and 256 steps of fuel suffice for any value below `2 ^ 256`. -/
def isqrtAux (n : Nat) : Nat → Nat → Nat → Nat
  | 0, lo, _hi => lo
  | fuel + 1, lo, hi =>
    if lo = hi then lo
    else
      let mid := (lo + hi + 1) / 2
      if mid * mid ≤ n then isqrtAux n fuel mid hi else isqrtAux n fuel lo (mid - 1)

/-- Integer square root (floor). -/
def isqrt (n : Nat) : Nat := isqrtAux n 256 0 n

/-- Modelled from the spec (sections 4.1 and 9; `get_delta_base_in` lives in `math.rs`,
which is not in the excerpt): the amount-in inversion solver for one linear segment.
`p0`/`p1` are the prices at the segment's lower/upper boundary, `w` the segment width,
`avail` the width available below the current position within the segment, and `qleft`
the remaining normalized quote.  Twice the scaled area absorbed by consuming width `d`
downward is `d * (2*p0*w + (p1-p0)*(2*avail - d))`; if the whole available width
absorbs at most `qleft` the solver consumes it all (area rounded up, favoring the
protocol), otherwise it solves the quadratic area equation for the width, takes the
non-negative root, clamps to the available width, and honors the specified quote
amount exactly.  The model's arithmetic is exact and never fails. -/
def get_delta_base_in (C : Consts) (p0 p1 w avail qleft : Nat) :
    Except Err (Nat × Nat) :=
  let dp := p1 - p0
  let den := 2 * C.SCALE * w
  let areaFull := avail * (2 * p0 * w + dp * avail)
  let dqFull := rdiv areaFull den .Up
  if dqFull ≤ qleft then .ok (avail, dqFull)
  else
    let bcoef := 2 * p0 * w + 2 * dp * avail
    let qscaled := qleft * den
    let root :=
      if dp = 0 then (if bcoef = 0 then avail else qscaled / bcoef)
      else (bcoef - isqrt (bcoef * bcoef - 4 * dp * qscaled)) / (2 * dp)
    .ok (min root avail, qleft)

/-- The downward interval walk of `Market::get_base_amount_in` (lines 230-248).
The loop index itself is the structural measure (`i` strictly decreases); the pattern
`i + 1` is the live index, which reads `price_curve[i]` as the lower boundary. -/
def gbai_loop (C : Consts) (pc : List Nat) (ws : Nat) :
    Nat → Nat → Nat → Nat → Nat → Except Err (Nat × Nat)
  | 0, _p1, _avail, qleft, nbacc => .ok (qleft, nbacc)
  | i + 1, p1, avail, qleft, nbacc =>
    if qleft > 0 then do
      let p0 ← arrGet pc i
      let d ← get_delta_base_in C p0 p1 ws avail qleft
      let nb' ← chkU128 (nbacc + d.1)
      gbai_loop C pc ws i p0 ws (qleft - d.2) nb'
    else .ok (qleft, nbacc)

/-- `Market::get_base_amount_in` (lines 209-264).  When the normalized supply falls
exactly on an interval boundary the walk starts with the full interval below it;
otherwise it starts with the used portion of the containing interval.  Both final
conversions round `Up`. -/
def Market.get_base_amount_in (C : Consts) (m : Market) (quote_amount : Nat) :
    Except Err (Nat × Nat) := do
  let pc := m.bid_prices
  let cs := m.circulating_supply
  let t1 ← chkU128 (cs * C.SCALE)
  let ns := t1 / C.BASE_PRECISION
  let qp := 10 ^ m.quote_token_decimals
  let t2 ← chkU128 (quote_amount * C.SCALE)
  let nql := t2 / qp
  let iRaw ← natDivChk ns m.width_scaled
  let i0 ← tryFromU64 iRaw
  let avail0 := ns % m.width_scaled
  let st := if avail0 = 0 then (i0, m.width_scaled) else (i0 + 1, avail0)
  let p1 ← arrGet pc st.1
  let res ← gbai_loop C pc m.width_scaled st.1 p1 st.2 nql 0
  let t3 ← chkU128 (res.2 * C.BASE_PRECISION)
  let bs ← div t3 C.SCALE .Up
  let t4 ← chkU128 (res.1 * qp)
  let d4 ← div t4 C.SCALE .Up
  let qs ← subChk quote_amount d4
  .ok (bs, qs)

/-- Width-scaled price at normalized position `t`: linear interpolation between the
two table entries bounding the interval containing `t`, multiplied by the interval
width `w` (spec section 3 and glossary: price varies linearly between two table
entries across each fixed-width interval). -/
def phat (pc : List Nat) (w t : Nat) : Nat :=
  pc.getD (t / w) 0 * (w - t % w) + pc.getD (t / w + 1) 0 * (t % w)

/-- Twice the width-scaled trapezoidal area under the price line over normalized
positions `[x, y)`: the unit trapezoid over `[t, t+1)` contributes
`phat t + phat (t+1)`. -/
def areaNum (pc : List Nat) (w x y : Nat) : Nat :=
  ∑ t in Finset.Ico x y, (phat pc w t + phat pc w (t + 1))

/-- Follows the spec's words (section 4.3): accumulate, interval by interval, the
trapezoidal quote area for the portion of each interval the remaining base amount
covers, until the full base amount is consumed or the curve is exhausted.  The walk
is driven by the normalized position `pos`; per interval the covered portion is
clipped at the interval's upper boundary, and the trapezoid area is the portion times
the sum of the width-scaled prices at its two ends, divided (with the caller's
rounding) by `2 * SCALE * w`.  `n` counts the curve intervals still ahead. -/
def spec_quote_walk (C : Consts) (pc : List Nat) (w : Nat) (r : Rounding) :
    Nat → Nat → Nat → Nat → Except Err (Nat × Nat)
  | 0, _pos, remaining, acc => .ok (remaining, acc)
  | n + 1, pos, remaining, acc =>
    if remaining = 0 then .ok (remaining, acc)
    else do
      let portion := min remaining ((pos / w + 1) * w - pos)
      let tz ← chkU128 (phat pc w pos + phat pc w (pos + portion))
      let den ← chkU128 (2 * C.SCALE * w)
      let dq ← okOrMathError (mul_div portion tz den r)
      let acc' ← chkU128 (acc + dq)
      spec_quote_walk C pc w r n (pos + portion) (remaining - portion) acc'

/-- Follows the spec's words (section 4.3) for the quote conversion: normalize supply
and base amount by `SCALE / BASE_PRECISION`, locate the starting interval by dividing
the normalized supply by the width, walk the remaining intervals accumulating
trapezoidal areas, and rescale the unconsumed residual and the accumulated quote back
to native precision with the caller's rounding.  Failure modes mirror section 4.1
(`MathError` for narrowing/zero-division in the fixed-point helpers) and the panics of
raw arithmetic. -/
def spec_get_quote_amount_with_parameters (C : Consts) (m : Market)
    (supply base_amount : Nat) (t : SwapAmountType) (r : Rounding) :
    Except Err (Nat × Nat) := do
  let pc := match t with
    | .ExactInput => m.bid_prices
    | .ExactOutput => m.ask_prices
  let t1 ← chkU128 (supply * C.SCALE)
  let ns := t1 / C.BASE_PRECISION
  let t2 ← chkU128 (base_amount * C.SCALE)
  let nb := t2 / C.BASE_PRECISION
  let iRaw ← natDivChk ns m.width_scaled
  let start ← tryFromU64 iRaw
  if start < C.PRICES_LENGTH then do
    let res ← spec_quote_walk C pc m.width_scaled r (C.PRICES_LENGTH - (start + 1)) ns nb 0
    let t3 ← chkU128 (res.1 * C.BASE_PRECISION)
    let d3 ← div t3 C.SCALE r
    let bs ← subChk base_amount d3
    let t4 ← chkU128 (res.2 * 10 ^ m.quote_token_decimals)
    let qs ← div t4 C.SCALE r
    .ok (bs, qs)
  else .error .panicked

/-- Follows the spec's words (section 4.3) at the `getQuoteAmount` entry point:
`ExactInput` sells over `[circulatingSupply - baseAmount, circulatingSupply)` on the
bid curve rounding `Down`; `ExactOutput` buys over
`[circulatingSupply, circulatingSupply + baseAmount)` on the ask curve rounding `Up`. -/
def spec_get_quote_amount (C : Consts) (m : Market) (base_amount : Nat)
    (t : SwapAmountType) : Except Err (Nat × Nat) :=
  let cs := m.circulating_supply
  match t with
  | .ExactInput => do
      let supply ← subChk cs base_amount
      spec_get_quote_amount_with_parameters C m supply base_amount t .Down
  | .ExactOutput =>
      spec_get_quote_amount_with_parameters C m cs base_amount t .Up

/-- A valid price table (spec section 3): one entry per interval boundary and strictly
increasing across consecutive indices. -/
def CurveOk (C : Consts) (pc : List Nat) : Prop :=
  pc.length = C.PRICES_LENGTH ∧
  ∀ i, i < C.INTERVAL_NUMBER → pc.getD i 0 < pc.getD (i + 1) 0

/-- A market with a valid active curve (spec section 3): positive scaling constants,
positive interval width, both tables valid with `bid[i] <= ask[i]`, and a reserve not
exceeding the total supply. -/
def MarketWF (C : Consts) (m : Market) : Prop :=
  0 < C.SCALE ∧ 0 < C.BASE_PRECISION ∧ 0 < m.width_scaled ∧
  CurveOk C m.bid_prices ∧ CurveOk C m.ask_prices ∧
  (∀ i, i < C.PRICES_LENGTH → m.bid_prices.getD i 0 ≤ m.ask_prices.getD i 0) ∧
  m.base_reserve ≤ m.total_supply

/-- A bid/ask violation at index `i` (spec section 4.2): `bid[i] > ask[i]`. -/
def bidAskBadAt (bid ask : List Nat) (i : Nat) : Prop :=
  ask.getD i 0 < bid.getD i 0

/-- A monotonicity violation at index `i > 0` (spec section 4.2): one of the two
sequences fails to increase strictly from index `i - 1` to `i`. -/
def decreasingBadAt (bid ask : List Nat) (i : Nat) : Prop :=
  0 < i ∧ (ask.getD i 0 ≤ ask.getD (i - 1) 0 ∨ bid.getD i 0 ≤ bid.getD (i - 1) 0)

/-- Any per-index validation violation. -/
def badAt (bid ask : List Nat) (i : Nat) : Prop :=
  bidAskBadAt bid ask i ∨ decreasingBadAt bid ask i

instance (C : Consts) (pc : List Nat) : Decidable (CurveOk C pc) := by
  unfold CurveOk; infer_instance

instance (C : Consts) (m : Market) : Decidable (MarketWF C m) := by
  unfold MarketWF; infer_instance

instance (bid ask : List Nat) (i : Nat) : Decidable (bidAskBadAt bid ask i) := by
  unfold bidAskBadAt; infer_instance

instance (bid ask : List Nat) (i : Nat) : Decidable (decreasingBadAt bid ask i) := by
  unfold decreasingBadAt; infer_instance

instance (bid ask : List Nat) (i : Nat) : Decidable (badAt bid ask i) := by
  unfold badAt; infer_instance

/-- Concrete constants for witnesses and counterexamples: 2 intervals (3 boundary
prices), `SCALE = 100`, `BASE_PRECISION = 1`. -/
def exC : Consts :=
  { INTERVAL_NUMBER := 2, SCALE := 100, BASE_PRECISION := 1,
    MAX_PRICE := 1000000, MAX_TOTAL_SUPPLY := 1000000 }

/-- Concrete fee configuration: creator 500 bps, staking 300 bps, referrals disabled. -/
def exFees : MarketFees :=
  { staking_fee_share := 300, creator_fee_share := 500, pending_staking_fees := 0,
    pending_creator_fees := 0, referral_fee_share := 100, referral_enabled := false }

/-- `exFees` after distributing a swap fee of 1000: pending creator 50, staking 30. -/
def exPostFees : MarketFees :=
  { exFees with pending_creator_fees := 50, pending_staking_fees := 30 }

/-- Concrete market: total supply 4 (two sold, two in reserve), equal bid/ask tables
`[10, 20, 30]`, width `(4 / 2) * 100 / 1 = 200`, quote decimals 2. -/
def exMarket : Market :=
  { base_reserve := 2, bid_prices := [10, 20, 30], ask_prices := [10, 20, 30],
    width_scaled := 200, total_supply := 4, fees := exFees,
    quote_token_decimals := 2, airdrop_ledger := 0 }

/-- `exMarket` after migration: zero reserve, zero width, referrals off. -/
def exMigrated : Market :=
  { exMarket with
    base_reserve := 0
    width_scaled := 0
    fees := { exFees with referral_enabled := false } }

/-- A market whose curves are not yet populated (for curve-setting and
initialization claims). -/
def exEmptyMarket : Market :=
  { base_reserve := 0, bid_prices := [0, 0, 0], ask_prices := [0, 0, 0],
    width_scaled := 0, total_supply := 0, fees := exFees,
    quote_token_decimals := 2, airdrop_ledger := 0 }

/-- `exEmptyMarket` after `initialize` with total supply 4, creator share 500,
staking share 300, referral share 100: width `(4 / 2) * 100 / 1 = 200`. -/
def exInitMarket : Market :=
  { exEmptyMarket with
    quote_token_decimals := 2
    total_supply := 4
    base_reserve := 4
    width_scaled := 200
    fees := { exFees with
              creator_fee_share := 500
              staking_fee_share := 300
              referral_fee_share := 100
              referral_enabled := true }
    airdrop_ledger := 0 }

/-! ## Helper lemmas -/

theorem except_bind_ok {α β : Type} {e : Except Err α} {f : α → Except Err β} {v : β} :
    e >>= f = .ok v ↔ ∃ a, e = .ok a ∧ f a = .ok v := by
  cases e <;> simp [Bind.bind, Except.bind]

theorem except_bind_error {α β : Type} {e : Except Err α} {f : α → Except Err β}
    {err : Err} :
    e >>= f = .error err ↔ e = .error err ∨ ∃ a, e = .ok a ∧ f a = .error err := by
  cases e <;> simp [Bind.bind, Except.bind]

@[simp] theorem ok_bind {α β : Type} (a : α) (f : α → Except Err β) :
    (Except.ok a >>= f) = f a := rfl

@[simp] theorem error_bind {α β : Type} (e : Err) (f : α → Except Err β) :
    ((Except.error e : Except Err α) >>= f) = .error e := rfl

@[simp] theorem chkU64_eq_ok {x y : Nat} : chkU64 x = .ok y ↔ x < U64 ∧ y = x := by
  unfold chkU64; split <;> simp_all <;> omega

@[simp] theorem chkU128_eq_ok {x y : Nat} : chkU128 x = .ok y ↔ x < U128 ∧ y = x := by
  unfold chkU128; split <;> simp_all <;> omega

@[simp] theorem subChk_eq_ok {a b y : Nat} : subChk a b = .ok y ↔ b ≤ a ∧ y = a - b := by
  unfold subChk; split <;> simp_all <;> omega

@[simp] theorem natDivChk_eq_ok {a b y : Nat} :
    natDivChk a b = .ok y ↔ b ≠ 0 ∧ y = a / b := by
  unfold natDivChk; split <;> simp_all <;> omega

@[simp] theorem tryFromU64_eq_ok {x y : Nat} :
    tryFromU64 x = .ok y ↔ x < U64 ∧ y = x := by
  unfold tryFromU64; split <;> simp_all <;> omega

@[simp] theorem okOrMathError_eq_ok {o : Option Nat} {y : Nat} :
    okOrMathError o = .ok y ↔ o = some y := by
  cases o <;> simp [okOrMathError]

@[simp] theorem arrGet_eq_ok {l : List Nat} {i y : Nat} :
    arrGet l i = .ok y ↔ i < l.length ∧ y = l.getD i 0 := by
  unfold arrGet; split <;> simp_all <;> omega

@[simp] theorem div_eq_ok {n d : Nat} {r : Rounding} {y : Nat} :
    div n d r = .ok y ↔ d ≠ 0 ∧ rdiv n d r < U64 ∧ y = rdiv n d r := by
  unfold div; split
  · simp_all
  · split <;> simp_all <;> omega

@[simp] theorem mul_div_eq_some {a b c : Nat} {r : Rounding} {y : Nat} :
    mul_div a b c r = some y ↔ c ≠ 0 ∧ rdiv (a * b) c r < U128 ∧ y = rdiv (a * b) c r := by
  unfold mul_div; split
  · simp_all
  · split <;> simp_all <;> omega

/-- Down-rounded division times the divisor is at most the numerator. -/
theorem rdiv_down_mul_le (n d : Nat) : rdiv n d .Down * d ≤ n := by
  simpa [rdiv] using Nat.div_mul_le_self n d

/-- Up-rounded division times the divisor is at least the numerator (positive divisor). -/
theorem le_rdiv_up_mul (n d : Nat) (hd : 0 < d) : n ≤ rdiv n d .Up * d := by
  show n ≤ (n + d - 1) / d * d
  have h1 := Nat.div_add_mod (n + d - 1) d
  have h2 : (n + d - 1) % d < d := Nat.mod_lt _ hd
  set q := (n + d - 1) / d with hq
  set s := (n + d - 1) % d with hs
  have hc : q * d = d * q := Nat.mul_comm _ _
  omega

/-- Rounded division is monotone in the numerator. -/
theorem rdiv_le_rdiv (n n' d : Nat) (r : Rounding) (h : n ≤ n') :
    rdiv n d r ≤ rdiv n' d r := by
  cases r
  · exact Nat.div_le_div_right h
  · exact Nat.div_le_div_right (by omega)

/-- Down rounding is at most up rounding. -/
theorem rdiv_down_le_up (n d : Nat) : rdiv n d .Down ≤ rdiv n d .Up := by
  rcases Nat.eq_zero_or_pos d with h | h
  · show n / d ≤ (n + d - 1) / d
    simp [h]
  · show n / d ≤ (n + d - 1) / d
    exact Nat.div_le_div_right (by omega)

/-- Up rounding of `0` is `0`. -/
theorem rdiv_up_zero (d : Nat) : rdiv 0 d .Up = 0 := by
  show (0 + d - 1) / d = 0
  rcases Nat.eq_zero_or_pos d with h | h
  · simp [h]
  · exact Nat.div_eq_of_lt (by omega)

/-! ## C5: fee distribution -/

/-- C5: whenever `distribute_fee` returns, the referral fee is
`swapFee * referralFeeShare / MAX_BPS` if referrals are enabled and `0` otherwise,
the creator and staking fees are the analogous floor shares, the protocol fee is the
remainder `swapFee - creatorFee - stakingFee - referralFee`, and the two pending
accumulators each grow by exactly their fee. -/
theorem C5_distribute_fee (m : Market) (swap_fee : Nat)
    (fees : Nat × Nat × Nat × Nat) (m' : Market)
    (h : Market.distribute_fee m swap_fee = .ok (fees, m')) :
    fees.1 = swap_fee * m.fees.creator_fee_share / MAX_BPS ∧
    fees.2.1 = swap_fee * m.fees.staking_fee_share / MAX_BPS ∧
    fees.2.2.2 = (if m.fees.referral_enabled then
      swap_fee * m.fees.referral_fee_share / MAX_BPS else 0) ∧
    fees.2.2.1 = swap_fee - fees.1 - fees.2.1 - fees.2.2.2 ∧
    m'.fees.pending_creator_fees = m.fees.pending_creator_fees + fees.1 ∧
    m'.fees.pending_staking_fees = m.fees.pending_staking_fees + fees.2.1 := by
  unfold Market.distribute_fee at h
  rw [except_bind_ok] at h
  obtain ⟨rf, hrf, h⟩ := h
  rw [except_bind_ok] at h
  obtain ⟨cf, hcf, h⟩ := h
  rw [except_bind_ok] at h
  obtain ⟨sf, hsf, h⟩ := h
  rw [except_bind_ok] at h
  obtain ⟨t1, ht1, h⟩ := h
  rw [except_bind_ok] at h
  obtain ⟨t2, ht2, h⟩ := h
  rw [except_bind_ok] at h
  obtain ⟨pf, hpf, h⟩ := h
  rw [except_bind_ok] at h
  obtain ⟨pc, hpc, h⟩ := h
  rw [except_bind_ok] at h
  obtain ⟨ps, hps, h⟩ := h
  rw [Except.ok.injEq, Prod.mk.injEq] at h
  obtain ⟨hfe, hm⟩ := h
  subst hfe
  subst hm
  rw [tryFromU64_eq_ok] at hcf hsf
  rw [subChk_eq_ok] at ht1 ht2 hpf
  rw [chkU64_eq_ok] at hpc hps
  refine ⟨hcf.2, hsf.2, ?_, (by omega : pf = swap_fee - cf - sf - rf),
    by simp [hpc.2], by simp [hps.2]⟩
  by_cases hren : m.fees.referral_enabled
  · rw [if_pos hren] at hrf ⊢
    rw [tryFromU64_eq_ok] at hrf
    exact hrf.2
  · rw [if_neg hren] at hrf ⊢
    rw [Except.ok.injEq] at hrf
    exact hrf.symm

/-- Witness for C5 at the spec's concrete example: `distribute_fee(1000)` with creator
share 500 bps, staking share 300 bps, referrals disabled yields
`(creator 50, staking 30, protocol 920, referral 0)`. -/
theorem C5_distribute_fee_witness :
    Market.distribute_fee exMarket 1000 =
      .ok ((50, 30, 920, 0),
        { exMarket with fees := exPostFees }) ∧
    (50 = 1000 * exMarket.fees.creator_fee_share / MAX_BPS ∧
     30 = 1000 * exMarket.fees.staking_fee_share / MAX_BPS ∧
     (0 : Nat) = (if exMarket.fees.referral_enabled then
       1000 * exMarket.fees.referral_fee_share / MAX_BPS else 0) ∧
     920 = 1000 - 50 - 30 - 0) := by
  refine ⟨by decide, ?_⟩
  have h := C5_distribute_fee exMarket 1000 (50, 30, 920, 0)
    { exMarket with fees := exPostFees } (by decide)
  exact ⟨h.1, h.2.1, h.2.2.1, h.2.2.2.1⟩

/-- Shared helper: the defining equation of `migrate_to_raydium`. -/
theorem migrate_to_raydium_eq (m : Market) :
    Market.migrate_to_raydium m =
      .ok { m with
            base_reserve := 0
            width_scaled := 0
            fees := { m.fees with referral_enabled := false } } := rfl

/-! ## C6: migration effects -/

/-- C6: `migrate_to_raydium` always succeeds and is exactly the ordered composition
lock liquidity (zero `base_reserve`), disable bonding curve (zero `width_scaled`),
pay the creator the fixed amount 200, then disable referrals; the resulting market
has zero `base_reserve`, zero `width_scaled` and referrals disabled. -/
theorem C6_migrate_to_raydium (m : Market) :
    (Market.migrate_to_raydium m = do
      let m1 ← Market.lock_liquidity m
      let m2 ← Market.disable_bonding_curve m1
      let m3 ← Market.payout_creator m2 200
      Except.ok { m3 with fees := { m3.fees with referral_enabled := false } }) ∧
    Market.migrate_to_raydium m =
      .ok { m with
            base_reserve := 0
            width_scaled := 0
            fees := { m.fees with referral_enabled := false } } :=
  ⟨rfl, migrate_to_raydium_eq m⟩

/-! ## C7: migration threshold -/

/-- C7: `check_threshold_and_migrate` fails with `NetSOLThreshold` exactly when the
proceeds fall outside the band `[60000, 63000]` (in which case no field is written:
the call aborts before any mutation and no updated market is produced); when the
proceeds are inside the band, migration runs exactly when
`circulatingSupply >= totalSupply * 80 / 100`, and otherwise the market is returned
unchanged. -/
theorem C7_check_threshold_and_migrate (m : Market) (net_sol : Nat) :
    ((Market.check_threshold_and_migrate m net_sol = .error .NetSOLThreshold) ↔
      (net_sol < 60000 ∨ 63000 < net_sol)) ∧
    (60000 ≤ net_sol → net_sol ≤ 63000 → m.total_supply * 80 < U64 →
      ((m.total_supply * 80) / 100 ≤ m.circulating_supply →
        Market.check_threshold_and_migrate m net_sol =
          .ok { m with
                base_reserve := 0
                width_scaled := 0
                fees := { m.fees with referral_enabled := false } }) ∧
      (m.circulating_supply < (m.total_supply * 80) / 100 →
        Market.check_threshold_and_migrate m net_sol = .ok m)) := by
  unfold Market.check_threshold_and_migrate
  refine ⟨⟨fun h => ?_, fun h => ?_⟩, fun h1 h2 hfit => ⟨fun hcirc => ?_, fun hcirc => ?_⟩⟩
  · by_contra hband
    push_neg at hband
    rw [if_neg (by omega)] at h
    rcases except_bind_error.mp h with h' | ⟨a, ha, h'⟩
    · unfold chkU64 at h'
      split at h' <;> simp_all
    · split at h'
      · rw [migrate_to_raydium_eq] at h'
        exact absurd h' (by simp)
      · exact absurd h' (by simp)
  · rw [if_pos (by omega)]
  · rw [if_neg (by omega), except_bind_ok]
    refine ⟨m.total_supply * 80, by simp [hfit], ?_⟩
    rw [if_pos hcirc]
    exact migrate_to_raydium_eq m
  · rw [if_neg (by omega), except_bind_ok]
    exact ⟨m.total_supply * 80, by simp [hfit], by rw [if_neg (by omega)]⟩

/-- Witness for C7: proceeds 59000 (below the band) fail with `NetSOLThreshold`;
proceeds 61000 on a market below the 80% supply mark leave the market unchanged. -/
theorem C7_check_threshold_and_migrate_witness :
    Market.check_threshold_and_migrate exMarket 59000 = .error .NetSOLThreshold ∧
    Market.check_threshold_and_migrate exMarket 61000 = .ok exMarket :=
  ⟨(C7_check_threshold_and_migrate exMarket 59000).1.mpr (by decide),
   ((C7_check_threshold_and_migrate exMarket 61000).2 (by decide) (by decide)
      (by decide)).2 (by decide)⟩

/-! ## C9: initialization -/

/-- C9: `initialize` fails with `InvalidTotalSupply` exactly when the requested total
supply exceeds `MAX_TOTAL_SUPPLY`, or the per-interval share is below
`BASE_PRECISION`, or the supply is not divisible by `INTERVAL_NUMBER`; on success the
base reserve equals the total supply and the width is
`(totalSupply / INTERVAL_NUMBER) * SCALE / BASE_PRECISION`, which is strictly
positive. -/
theorem C9_initialize (C : Consts) (m : Market) (qd ts cf sf rf : Nat)
    (hS : 0 < C.SCALE) (hB : 0 < C.BASE_PRECISION) :
    (( Market.initialize C m qd ts cf sf rf = .error .InvalidTotalSupply) ↔
      (C.MAX_TOTAL_SUPPLY < ts ∨ ts / C.INTERVAL_NUMBER < C.BASE_PRECISION ∨
        ts / C.INTERVAL_NUMBER * C.INTERVAL_NUMBER ≠ ts)) ∧
    ∀ m', Market.initialize C m qd ts cf sf rf = .ok m' →
      m'.base_reserve = ts ∧ m'.total_supply = ts ∧
      m'.width_scaled = ts / C.INTERVAL_NUMBER * C.SCALE / C.BASE_PRECISION ∧
      0 < m'.width_scaled := by
  unfold Market.initialize
  split
  case isTrue hcond =>
    refine ⟨⟨fun _ => hcond, fun _ => rfl⟩, fun m' h => ?_⟩
    exact absurd h (by simp)
  case isFalse hcond =>
    push_neg at hcond
    constructor
    · constructor
      · intro h
        exfalso
        rcases except_bind_error.mp h with h' | ⟨a, ha, h'⟩
        · unfold chkU128 at h'
          split at h' <;> simp_all
        · rcases except_bind_error.mp h' with h'' | ⟨w, hw, h''⟩
          · unfold tryFromU64 at h''
            split at h'' <;> simp_all
          · exact absurd h'' (by simp)
      · intro hc
        exact absurd hc (by omega)
    · intro m' h
      rw [except_bind_ok] at h
      obtain ⟨prod, hprod, h⟩ := h
      rw [except_bind_ok] at h
      obtain ⟨w, hw, h⟩ := h
      rw [Except.ok.injEq] at h
      subst h
      rw [chkU128_eq_ok] at hprod
      rw [tryFromU64_eq_ok] at hw
      obtain ⟨-, hp2⟩ := hprod
      obtain ⟨-, hw2⟩ := hw
      subst hp2
      subst hw2
      refine ⟨rfl, rfl, rfl, ?_⟩
      show 0 < ts / C.INTERVAL_NUMBER * C.SCALE / C.BASE_PRECISION
      have h1 : C.BASE_PRECISION ≤ ts / C.INTERVAL_NUMBER := hcond.2.1
      have h2 : C.BASE_PRECISION * C.SCALE ≤ ts / C.INTERVAL_NUMBER * C.SCALE :=
        Nat.mul_le_mul_right _ h1
      have h3 : C.SCALE ≤ ts / C.INTERVAL_NUMBER * C.SCALE / C.BASE_PRECISION := by
        calc C.SCALE = C.BASE_PRECISION * C.SCALE / C.BASE_PRECISION :=
              (Nat.mul_div_cancel_left _ hB).symm
          _ ≤ _ := Nat.div_le_div_right h2
      omega

/-- Witness for C9: with the concrete constants, total supply 5 is rejected as
`InvalidTotalSupply` (not divisible by 2) while total supply 4 succeeds with base
reserve 4 and positive width 200. -/
theorem C9_initialize_witness :
    Market.initialize exC exEmptyMarket 2 5 500 300 100 = .error .InvalidTotalSupply ∧
    Market.initialize exC exEmptyMarket 2 4 500 300 100 = .ok exInitMarket ∧
    0 < exInitMarket.width_scaled := by
  refine ⟨( C9_initialize exC exEmptyMarket 2 5 500 300 100 (by decide)
      (by decide)).1.mpr (by decide), by decide, ?_⟩
  exact (( C9_initialize exC exEmptyMarket 2 4 500 300 100 (by decide) (by decide)).2
    exInitMarket (by decide)).2.2.2

/-! ## C10: the ExactInput supply subtraction -/

/-- C10: in direction `ExactInput`, `get_quote_amount` computes its starting supply
as `circulatingSupply - baseAmount` by an unchecked `u64` subtraction; under the
precondition `baseAmount ≤ circulatingSupply` the subtraction does not underflow and
the call reduces to `get_quote_amount_with_parameters` at that supply (rounding
`Down`); when the precondition fails the subtraction panics; direction `ExactOutput`
never performs the subtraction and passes the circulating supply itself (rounding
`Up`). -/
theorem C10_exact_input_supply (C : Consts) (m : Market) (b : Nat) :
    (b ≤ m.circulating_supply →
      Market.get_quote_amount C m b .ExactInput =
        Market.get_quote_amount_with_parameters C m (m.circulating_supply - b) b
          .ExactInput .Down) ∧
    (m.circulating_supply < b →
      Market.get_quote_amount C m b .ExactInput = .error .panicked) ∧
    Market.get_quote_amount C m b .ExactOutput =
      Market.get_quote_amount_with_parameters C m m.circulating_supply b
        .ExactOutput .Up := by
  refine ⟨fun h => ?_, fun h => ?_, rfl⟩
  · show subChk m.circulating_supply b >>= _ = _
    rw [show subChk m.circulating_supply b = .ok (m.circulating_supply - b) from
      subChk_eq_ok.mpr ⟨h, rfl⟩, ok_bind]
  · show subChk m.circulating_supply b >>= _ = _
    rw [show subChk m.circulating_supply b = .error .panicked from by
      unfold subChk; rw [if_neg (by omega)], error_bind]

/-- Witness for C10 on the concrete market (circulating supply 2): base 1 reduces to
the parameterized call at supply 1, base 5 panics on the underflow. -/
theorem C10_exact_input_supply_witness :
    Market.get_quote_amount exC exMarket 1 .ExactInput =
      Market.get_quote_amount_with_parameters exC exMarket 1 1 .ExactInput .Down ∧
    Market.get_quote_amount exC exMarket 5 .ExactInput = .error .panicked :=
  ⟨(C10_exact_input_supply exC exMarket 1).1 (by decide),
   (C10_exact_input_supply exC exMarket 5).2.1 (by decide)⟩

/-! ## C8: calls after migration -/

theorem chkU128_error {x : Nat} {e : Err} (h : chkU128 x = .error e) : e = .panicked := by
  unfold chkU128 at h
  split at h <;> simp_all

theorem subChk_error {a b : Nat} {e : Err} (h : subChk a b = .error e) : e = .panicked := by
  unfold subChk at h
  split at h <;> simp_all

/-- With a zero interval width, `get_quote_amount_with_parameters` always panics:
either one of the `u128` normalization products overflows, or the raw division
`normalized_supply / width_scaled` divides by zero. -/
theorem gqwp_width_zero (C : Consts) (m : Market) (supply b : Nat)
    (ty : SwapAmountType) (r : Rounding) (hw : m.width_scaled = 0) :
    Market.get_quote_amount_with_parameters C m supply b ty r = .error .panicked := by
  cases ty
  case ExactInput =>
    show chkU128 (supply * C.SCALE) >>= _ = _
    cases h1 : chkU128 (supply * C.SCALE) with
    | error e => rw [error_bind, chkU128_error h1]
    | ok t1 =>
      rw [ok_bind]
      show chkU128 (b * C.SCALE) >>= _ = _
      cases h2 : chkU128 (b * C.SCALE) with
      | error e => rw [error_bind, chkU128_error h2]
      | ok t2 =>
        rw [ok_bind]
        show natDivChk (t1 / C.BASE_PRECISION) m.width_scaled >>= _ = _
        rw [hw]
        rfl
  case ExactOutput =>
    show chkU128 (supply * C.SCALE) >>= _ = _
    cases h1 : chkU128 (supply * C.SCALE) with
    | error e => rw [error_bind, chkU128_error h1]
    | ok t1 =>
      rw [ok_bind]
      show chkU128 (b * C.SCALE) >>= _ = _
      cases h2 : chkU128 (b * C.SCALE) with
      | error e => rw [error_bind, chkU128_error h2]
      | ok t2 =>
        rw [ok_bind]
        show natDivChk (t1 / C.BASE_PRECISION) m.width_scaled >>= _ = _
        rw [hw]
        rfl

/-- C8 (amended): after a successful `migrate_to_raydium`, every `get_quote_amount`
call fails — but with an arithmetic panic (division by the zero width, or the
underflow of `circulating_supply - base_amount`), not with the `MathError` error
code — and `base_reserve = 0`. -/
theorem C8_post_migration_calls_fail (C : Consts) (m m' : Market)
    (h : Market.migrate_to_raydium m = .ok m') (b : Nat) (ty : SwapAmountType) :
    Market.get_quote_amount C m' b ty = .error .panicked ∧ m'.base_reserve = 0 := by
  rw [migrate_to_raydium_eq, Except.ok.injEq] at h
  subst h
  refine ⟨?_, rfl⟩
  cases ty with
  | ExactInput =>
    show subChk _ b >>= _ = _
    cases hs : subChk (Market.circulating_supply _) b with
    | error e => rw [error_bind, subChk_error hs]
    | ok s => rw [ok_bind]; exact gqwp_width_zero C _ s b .ExactInput .Down rfl
  | ExactOutput => exact gqwp_width_zero C _ _ b .ExactOutput .Up rfl

/-- Witness for the amended C8 at the concrete market. -/
theorem C8_post_migration_calls_fail_witness :
    Market.get_quote_amount exC exMigrated 3 .ExactOutput = .error .panicked ∧
    exMigrated.base_reserve = 0 :=
  C8_post_migration_calls_fail exC exMarket exMigrated (by decide) 3 .ExactOutput

/-- Counterexample to C8 as stated: on the migrated concrete market the call does
fail, but with a panic (division by zero aborts the transaction), which is not the
`MathError` error code the claim names. -/
theorem C8_counterexample :
    Market.migrate_to_raydium exMarket = .ok exMigrated ∧
    Market.get_quote_amount exC exMigrated 1 .ExactInput = .error .panicked ∧
    Market.get_quote_amount exC exMigrated 1 .ExactInput ≠ .error .MathError := by
  exact ⟨by decide, by decide, by decide⟩

/-! ## C3: curve validation -/

/-- The validation scan succeeds exactly when no index it visits has a violation. -/
theorem scan_ok_iff (bid ask : List Nat) : ∀ k i,
    check_prices_from bid ask i k = .ok () ↔
      ∀ j, i ≤ j → j < i + k → ¬ badAt bid ask j := by
  intro k
  induction k with
  | zero =>
    intro i
    exact iff_of_true rfl (fun j h1 h2 => absurd h2 (by omega))
  | succ k ih =>
    intro i
    simp only [check_prices_from]
    split_ifs with h1 h2
    · refine iff_of_false (by simp) (fun hall => hall i le_rfl (by omega) (Or.inl h1))
    · refine iff_of_false (by simp) (fun hall => hall i le_rfl (by omega) (Or.inr h2))
    · rw [ih (i + 1)]
      constructor
      · intro hall j hj1 hj2
        by_cases hji : j = i
        · subst hji
          rintro (hb | hb)
          · exact h1 hb
          · exact h2 hb
        · exact hall j (by omega) (by omega)
      · intro hall j hj1 hj2
        exact hall j (by omega) (by omega)

/-- The validation scan only ever reports the two per-index errors. -/
theorem scan_error_kind (bid ask : List Nat) : ∀ k i e,
    check_prices_from bid ask i k = .error e →
    e = .BidAskMismatch ∨ e = .DecreasingPrices := by
  intro k
  induction k with
  | zero => intro i e h; exact absurd h (by simp [check_prices_from])
  | succ k ih =>
    intro i e h
    simp only [check_prices_from] at h
    split_ifs at h with h1 h2
    · rw [Except.error.injEq] at h
      exact Or.inl h.symm
    · rw [Except.error.injEq] at h
      exact Or.inr h.symm
    · exact ih (i + 1) e h

/-- The scan reports `BidAskMismatch` exactly when the first violating index it
visits has a bid above the ask. -/
theorem scan_bidask_iff (bid ask : List Nat) : ∀ k i,
    check_prices_from bid ask i k = .error .BidAskMismatch ↔
      ∃ j, i ≤ j ∧ j < i + k ∧ bidAskBadAt bid ask j ∧
        ∀ l, i ≤ l → l < j → ¬ badAt bid ask l := by
  intro k
  induction k with
  | zero =>
    intro i
    refine iff_of_false (by simp [check_prices_from]) ?_
    rintro ⟨j, h1, h2, -, -⟩
    omega
  | succ k ih =>
    intro i
    simp only [check_prices_from]
    split_ifs with h1 h2
    · refine iff_of_true rfl ⟨i, le_rfl, by omega, h1, fun l hl1 hl2 => absurd hl2 (by omega)⟩
    · refine iff_of_false (by simp) ?_
      rintro ⟨j, hj1, hj2, hbad, hpre⟩
      rcases Nat.eq_or_lt_of_le hj1 with he | hlt
      · exact h1 (he ▸ hbad)
      · exact hpre i le_rfl hlt (Or.inr h2)
    · rw [ih (i + 1)]
      constructor
      · rintro ⟨j, hj1, hj2, hbad, hpre⟩
        refine ⟨j, by omega, by omega, hbad, fun l hl1 hl2 => ?_⟩
        by_cases hli : l = i
        · subst hli
          rintro (hb | hb)
          · exact h1 hb
          · exact h2 hb
        · exact hpre l (by omega) hl2
      · rintro ⟨j, hj1, hj2, hbad, hpre⟩
        have hji : j ≠ i := fun he => h1 (he ▸ hbad)
        exact ⟨j, by omega, by omega, hbad, fun l hl1 hl2 => hpre l (by omega) hl2⟩

/-- The scan reports `DecreasingPrices` exactly when the first violating index it
visits is a monotonicity violation (and not also a bid/ask violation, which takes
precedence at the same index). -/
theorem scan_dec_iff (bid ask : List Nat) : ∀ k i,
    check_prices_from bid ask i k = .error .DecreasingPrices ↔
      ∃ j, i ≤ j ∧ j < i + k ∧ ¬ bidAskBadAt bid ask j ∧ decreasingBadAt bid ask j ∧
        ∀ l, i ≤ l → l < j → ¬ badAt bid ask l := by
  intro k
  induction k with
  | zero =>
    intro i
    refine iff_of_false (by simp [check_prices_from]) ?_
    rintro ⟨j, h1, h2, -, -, -⟩
    omega
  | succ k ih =>
    intro i
    simp only [check_prices_from]
    split_ifs with h1 h2
    · refine iff_of_false (by simp) ?_
      rintro ⟨j, hj1, hj2, hnb, -, hpre⟩
      rcases Nat.eq_or_lt_of_le hj1 with he | hlt
      · exact hnb (he ▸ h1)
      · exact hpre i le_rfl hlt (Or.inl h1)
    · refine iff_of_true rfl
        ⟨i, le_rfl, by omega, h1, h2, fun l hl1 hl2 => absurd hl2 (by omega)⟩
    · rw [ih (i + 1)]
      constructor
      · rintro ⟨j, hj1, hj2, hnb, hbad, hpre⟩
        refine ⟨j, by omega, by omega, hnb, hbad, fun l hl1 hl2 => ?_⟩
        by_cases hli : l = i
        · subst hli
          rintro (hb | hb)
          · exact h1 hb
          · exact h2 hb
        · exact hpre l (by omega) hl2
      · rintro ⟨j, hj1, hj2, hnb, hbad, hpre⟩
        have hji : j ≠ i := fun he => h2 (he ▸ hbad)
        exact ⟨j, by omega, by omega, hnb, hbad, fun l hl1 hl2 => hpre l (by omega) hl2⟩

/-- C3: `check_and_set_prices` fails with `PricesAlreadySet` exactly when the curves
are already populated; otherwise it succeeds — storing both tables — exactly when no
index has a violation and the final ask entry is within `MAX_PRICE`; the error kind
on failure is `BidAskMismatch`/`DecreasingPrices` according to the first violating
index (bid/ask violations take precedence at an index), and `PriceTooHigh` exactly
when the per-index checks pass but the final ask exceeds `MAX_PRICE`.  In the model
an error produces no updated market, so the stored tables are unmodified on every
failure. -/
theorem C3_check_and_set_prices (C : Consts) (m : Market) (bid ask : List Nat) :
    ((Market.check_and_set_prices C m bid ask = .error .PricesAlreadySet) ↔
      m.are_prices_set C = true) ∧
    ((Market.check_and_set_prices C m bid ask =
        .ok { m with bid_prices := bid, ask_prices := ask }) ↔
      (m.are_prices_set C = false ∧
       (∀ i, i < C.PRICES_LENGTH → ¬ badAt bid ask i) ∧
       ask.getD C.INTERVAL_NUMBER 0 ≤ C.MAX_PRICE)) ∧
    (∀ m', Market.check_and_set_prices C m bid ask = .ok m' →
      m' = { m with bid_prices := bid, ask_prices := ask }) ∧
    (m.are_prices_set C = false →
      (((Market.check_and_set_prices C m bid ask = .error .BidAskMismatch) ↔
        ∃ j, j < C.PRICES_LENGTH ∧ bidAskBadAt bid ask j ∧
          ∀ l, l < j → ¬ badAt bid ask l) ∧
       ((Market.check_and_set_prices C m bid ask = .error .DecreasingPrices) ↔
        ∃ j, j < C.PRICES_LENGTH ∧ ¬ bidAskBadAt bid ask j ∧ decreasingBadAt bid ask j ∧
          ∀ l, l < j → ¬ badAt bid ask l) ∧
       ((Market.check_and_set_prices C m bid ask = .error .PriceTooHigh) ↔
        ((∀ i, i < C.PRICES_LENGTH → ¬ badAt bid ask i) ∧
         C.MAX_PRICE < ask.getD C.INTERVAL_NUMBER 0)))) := by
  by_cases hset : m.are_prices_set C = true
  · rw [show Market.check_and_set_prices C m bid ask = .error .PricesAlreadySet from by
      unfold Market.check_and_set_prices; rw [if_pos hset]]
    refine ⟨iff_of_true rfl hset, iff_of_false (by simp) ?_, by simp, ?_⟩
    · rintro ⟨hf, -, -⟩
      rw [hset] at hf
      cases hf
    · intro hf
      rw [hset] at hf
      cases hf
  · have hset' : m.are_prices_set C = false := by
      cases h : m.are_prices_set C
      · rfl
      · exact absurd h hset
    have hbody : Market.check_and_set_prices C m bid ask =
        (check_prices_from bid ask 0 C.PRICES_LENGTH >>= fun _ =>
          if ask.getD C.INTERVAL_NUMBER 0 > C.MAX_PRICE then .error .PriceTooHigh
          else .ok { m with bid_prices := bid, ask_prices := ask }) := by
      unfold Market.check_and_set_prices
      rw [if_neg hset]
    rw [hbody]
    cases hscan : check_prices_from bid ask 0 C.PRICES_LENGTH with
    | error e =>
      rw [error_bind]
      rcases scan_error_kind bid ask C.PRICES_LENGTH 0 e hscan with he | he <;> subst he
      · have hb := (scan_bidask_iff bid ask C.PRICES_LENGTH 0).mp hscan
        obtain ⟨j, -, hj2, hbad, hpre⟩ := hb
        have hnotall : ¬ ∀ i, i < C.PRICES_LENGTH → ¬ badAt bid ask i :=
          fun hall => hall j (by omega) (Or.inl hbad)
        refine ⟨iff_of_false (by simp) (fun h => hset (by simp_all)),
          iff_of_false (by simp) (fun hf => hnotall hf.2.1), by simp, fun _ => ?_⟩
        refine ⟨?_, ?_, ?_⟩
        · rw [scan_bidask_iff bid ask C.PRICES_LENGTH 0] at hscan
          obtain ⟨j', hj'1, hj'2, hb', hp'⟩ := hscan
          exact iff_of_true rfl
            ⟨j', by omega, hb', fun l hl => hp' l (by omega) hl⟩
        · constructor
          · intro hf
            cases hf
          · rintro ⟨j', hj'1, hnb', hdec', hpre'⟩
            rcases Nat.lt_trichotomy j j' with h | h | h
            · exact absurd (Or.inl hbad) (hpre' j h)
            · subst h
              exact absurd hbad hnb'
            · exact absurd (Or.inr hdec') (hpre j' (by omega) h)
        · constructor
          · intro hf
            cases hf
          · rintro ⟨hall, -⟩
            exact absurd (Or.inl hbad) (hall j (by omega))
      · have hb := (scan_dec_iff bid ask C.PRICES_LENGTH 0).mp hscan
        obtain ⟨j, -, hj2, hnb, hdec, hpre⟩ := hb
        have hnotall : ¬ ∀ i, i < C.PRICES_LENGTH → ¬ badAt bid ask i :=
          fun hall => hall j (by omega) (Or.inr hdec)
        refine ⟨iff_of_false (by simp) (fun h => hset (by simp_all)),
          iff_of_false (by simp) (fun hf => hnotall hf.2.1), by simp, fun _ => ?_⟩
        refine ⟨?_, ?_, ?_⟩
        · constructor
          · intro hf
            cases hf
          · rintro ⟨j', hj'1, hb', hpre'⟩
            rcases Nat.lt_trichotomy j j' with h | h | h
            · exact absurd (Or.inr hdec) (hpre' j h)
            · subst h
              exact absurd hb' hnb
            · exact absurd (Or.inl hb') (hpre j' (by omega) h)
        · exact iff_of_true rfl
            ⟨j, by omega, hnb, hdec, fun l hl => hpre l (by omega) hl⟩
        · constructor
          · intro hf
            cases hf
          · rintro ⟨hall, -⟩
            exact absurd (Or.inr hdec) (hall j (by omega))
    | ok u =>
      cases u
      rw [ok_bind]
      have hall := (scan_ok_iff bid ask C.PRICES_LENGTH 0).mp hscan
      have hall' : ∀ i, i < C.PRICES_LENGTH → ¬ badAt bid ask i :=
        fun i hi => hall i (Nat.zero_le i) (by omega)
      split_ifs with hmax
      · refine ⟨iff_of_false (by simp) (fun h => hset (by simp_all)),
          iff_of_false (by simp) (fun hf => absurd hmax (by omega)), by simp, fun _ => ?_⟩
        refine ⟨?_, ?_, iff_of_true rfl ⟨hall', hmax⟩⟩
        · constructor
          · intro hf
            cases hf
          · rintro ⟨j, hj1, hb, -⟩
            exact absurd (Or.inl hb) (hall' j hj1)
        · constructor
          · intro hf
            cases hf
          · rintro ⟨j, hj1, -, hdec, -⟩
            exact absurd (Or.inr hdec) (hall' j hj1)
      · refine ⟨iff_of_false (by simp) (fun h => hset (by simp_all)),
          iff_of_true rfl ⟨hset', hall', by omega⟩, fun m' h => by simpa using h.symm,
          fun _ => ?_⟩
        refine ⟨?_, ?_, ?_⟩
        · constructor
          · intro hf
            cases hf
          · rintro ⟨j, hj1, hb, -⟩
            exact absurd (Or.inl hb) (hall' j hj1)
        · constructor
          · intro hf
            cases hf
          · rintro ⟨j, hj1, -, hdec, -⟩
            exact absurd (Or.inr hdec) (hall' j hj1)
        · exact iff_of_false (by simp) (fun hf => absurd hf.2 (by omega))

/-- Witness for C3: on the concrete empty-curve market, a valid pair of tables is
stored; each failure mode is exercised: already-set curves, a bid above the ask, a
non-increasing bid sequence, and a final ask above `MAX_PRICE`. -/
theorem C3_check_and_set_prices_witness :
    Market.check_and_set_prices exC exEmptyMarket [10, 20, 30] [10, 20, 30] =
      .ok { exEmptyMarket with bid_prices := [10, 20, 30], ask_prices := [10, 20, 30] } ∧
    Market.check_and_set_prices exC exMarket [10, 20, 30] [10, 20, 30] =
      .error .PricesAlreadySet ∧
    Market.check_and_set_prices exC exEmptyMarket [11, 20, 30] [10, 20, 30] =
      .error .BidAskMismatch ∧
    Market.check_and_set_prices exC exEmptyMarket [10, 10, 30] [10, 20, 30] =
      .error .DecreasingPrices ∧
    Market.check_and_set_prices exC exEmptyMarket [10, 20, 30] [10, 20, 2000000] =
      .error .PriceTooHigh := by
  refine ⟨(C3_check_and_set_prices exC exEmptyMarket [10, 20, 30] [10, 20, 30]).2.1.mpr
      ⟨by decide, by decide, by decide⟩,
    (C3_check_and_set_prices exC exMarket [10, 20, 30] [10, 20, 30]).1.mpr (by decide),
    ((C3_check_and_set_prices exC exEmptyMarket [11, 20, 30] [10, 20, 30]).2.2.2
      (by decide)).1.mpr ⟨0, by decide, by decide, fun l hl => absurd hl (by omega)⟩,
    ((C3_check_and_set_prices exC exEmptyMarket [10, 10, 30] [10, 20, 30]).2.2.2
      (by decide)).2.1.mpr ⟨1, by decide, by decide, by decide,
        fun l hl => by interval_cases l <;> decide⟩,
    ((C3_check_and_set_prices exC exEmptyMarket [10, 20, 30] [10, 20, 2000000]).2.2.2
      (by decide)).2.2.mpr ⟨by decide, by decide⟩⟩

/-! ## C2: the quote walk follows the spec's algorithm -/

theorem except_bind_congr_ok {α β : Type} {e : Except Err α} {f g : α → Except Err β}
    (h : ∀ a, e = .ok a → f a = g a) : e >>= f = e >>= g := by
  cases e with
  | error err => rfl
  | ok a => exact h a rfl

theorem arrGet_ok_of_lt (l : List Nat) (i : Nat) (h : i < l.length) :
    arrGet l i = .ok (l.getD i 0) := by
  unfold arrGet
  rw [if_pos h]

theorem arrGet_oob (l : List Nat) (i : Nat) (h : ¬ i < l.length) :
    arrGet l i = .error .panicked := by
  unfold arrGet
  rw [if_neg h]

theorem gq_loop_bl_zero (C : Consts) (pc : List Nat) (ws : Nat) (r : Rounding)
    (fuel i p0 used qa : Nat) :
    gq_loop C pc ws r fuel i p0 used 0 qa = .ok (0, qa) := by
  cases fuel with
  | zero => rfl
  | succ fuel =>
    simp only [gq_loop]
    rw [if_neg (by omega)]

theorem spec_walk_bl_zero (C : Consts) (pc : List Nat) (w : Nat) (r : Rounding)
    (n pos qa : Nat) :
    spec_quote_walk C pc w r n pos 0 qa = .ok (0, qa) := by
  cases n with
  | zero => rfl
  | succ n => simp [spec_quote_walk]

/-- Evaluating the width-scaled linear price at offset `o ≤ w` inside interval `k`. -/
theorem phat_eval (pc : List Nat) (w k o : Nat) (hw : 0 < w) (ho : o ≤ w) :
    phat pc w (k * w + o) = pc.getD k 0 * (w - o) + pc.getD (k + 1) 0 * o := by
  rcases Nat.lt_or_ge o w with holt | hge
  · have hdiv : (k * w + o) / w = k := by
      rw [Nat.add_comm, Nat.mul_comm, Nat.add_mul_div_left _ _ hw,
        Nat.div_eq_of_lt holt, Nat.zero_add]
    have hmod : (k * w + o) % w = o := by
      rw [Nat.add_comm, Nat.mul_comm, Nat.add_mul_mod_self_left, Nat.mod_eq_of_lt holt]
    unfold phat
    rw [hdiv, hmod]
  · have ho' : o = w := by omega
    rw [ho']
    have he : k * w + w = (k + 1) * w := by ring
    have hdiv : (k + 1) * w / w = k + 1 := Nat.mul_div_cancel _ hw
    have hmod : (k + 1) * w % w = 0 := Nat.mul_mod_left _ _
    unfold phat
    rw [he, hdiv, hmod]
    simp

/-- The chunk factor of the code's trapezoid (`(p1 - p0)*(d + 2u) + 2*p0*w`) equals
the sum of the width-scaled prices at the chunk's two ends. -/
theorem phat_chunk (pc : List Nat) (w k u d : Nat) (hw : 0 < w) (hud : u + d ≤ w)
    (hp : pc.getD k 0 ≤ pc.getD (k + 1) 0) :
    phat pc w (k * w + u) + phat pc w (k * w + u + d) =
      (pc.getD (k + 1) 0 - pc.getD k 0) * (d + 2 * u) + 2 * pc.getD k 0 * w := by
  rw [phat_eval pc w k u hw (by omega), show k * w + u + d = k * w + (u + d) from by omega,
    phat_eval pc w k (u + d) hw hud]
  zify [hp, show u ≤ w from by omega, hud]
  ring

/-- The code's interval walk computes exactly the spec's position-driven trapezoid
walk: state correspondence `pos = (i-1)*w + used`, with the spec's fuel being the
number of intervals still ahead. -/
theorem gq_loop_eq_spec (C : Consts) (pc : List Nat) (w : Nat) (r : Rounding)
    (hw : 0 < w) (hlen : pc.length = C.PRICES_LENGTH)
    (hmono : ∀ j, j < C.INTERVAL_NUMBER → pc.getD j 0 ≤ pc.getD (j + 1) 0) :
    ∀ fuel i p0 used bl qa, C.PRICES_LENGTH ≤ fuel + i → 1 ≤ i → used < w →
      p0 = pc.getD (i - 1) 0 →
      gq_loop C pc w r fuel i p0 used bl qa =
        spec_quote_walk C pc w r (C.PRICES_LENGTH - i) ((i - 1) * w + used) bl qa := by
  intro fuel
  induction fuel with
  | zero =>
    intro i p0 used bl qa hfuel hi hused hp0
    rw [show C.PRICES_LENGTH - i = 0 from by omega]
    rfl
  | succ fuel ih =>
    intro i p0 used bl qa hfuel hi hused hp0
    subst hp0
    by_cases hbl : bl = 0
    · subst hbl
      rw [gq_loop_bl_zero, spec_walk_bl_zero]
    by_cases hipl : i < C.PRICES_LENGTH
    case neg =>
      rw [show C.PRICES_LENGTH - i = 0 from by omega]
      simp only [gq_loop]
      rw [if_neg (fun hc => hipl hc.2)]
      rfl
    case pos =>
      rw [show C.PRICES_LENGTH - i = (C.PRICES_LENGTH - (i + 1)) + 1 from by omega]
      simp only [gq_loop, spec_quote_walk]
      rw [if_pos ⟨Nat.pos_of_ne_zero hbl, hipl⟩, if_neg hbl]
      have hilen : i < pc.length := by omega
      have hple : pc.getD (i - 1) 0 ≤ pc.getD i 0 := by
        have h := hmono (i - 1) (by
          have : C.PRICES_LENGTH = C.INTERVAL_NUMBER + 1 := rfl
          omega)
        rwa [Nat.sub_add_cancel hi] at h
      have hsub : subChk (pc.getD i 0) (pc.getD (i - 1) 0) =
          .ok (pc.getD i 0 - pc.getD (i - 1) 0) := subChk_eq_ok.mpr ⟨hple, rfl⟩
      have hdivpos : ((i - 1) * w + used) / w = i - 1 := by
        rw [Nat.add_comm, Nat.mul_comm, Nat.add_mul_div_left _ _ hw,
          Nat.div_eq_of_lt hused, Nat.zero_add]
      have heq : (i - 1 + 1) * w - ((i - 1) * w + used) = w - used := by
        have h1 : (i - 1 + 1) * w = (i - 1) * w + w := Nat.succ_mul _ _
        omega
      have hphat : phat pc w ((i - 1) * w + used) +
          phat pc w ((i - 1) * w + used + min bl (w - used)) =
          (pc.getD i 0 - pc.getD (i - 1) 0) * (min bl (w - used) + 2 * used) +
            2 * pc.getD (i - 1) 0 * w := by
        have h2 := phat_chunk pc w (i - 1) used (min bl (w - used)) hw
          (by have := Nat.min_le_right bl (w - used); omega)
          (by rwa [Nat.sub_add_cancel hi])
        rwa [Nat.sub_add_cancel hi] at h2
      simp only [arrGet_ok_of_lt pc i hilen, hsub, ok_bind, hdivpos, heq, hphat]
      apply except_bind_congr_ok
      intro factor hfac
      apply except_bind_congr_ok
      intro den hden
      apply except_bind_congr_ok
      intro dq hdq
      apply except_bind_congr_ok
      intro qa' hqa'
      by_cases hrem : bl - min bl (w - used) = 0
      · rw [hrem, gq_loop_bl_zero, spec_walk_bl_zero]
      · have hmin : min bl (w - used) = w - used := by omega
        have hiw : i * w = (i - 1) * w + w := by
          have h1 : (i - 1 + 1) * w = (i - 1) * w + w := by ring
          rw [Nat.sub_add_cancel hi] at h1
          exact h1
        have hpos' : (i - 1) * w + used + min bl (w - used) = (i + 1 - 1) * w + 0 := by
          rw [hmin]
          have : (i + 1 - 1) * w = i * w := rfl
          omega
        rw [hpos']
        exact ih (i + 1) (pc.getD i 0) 0 (bl - min bl (w - used)) qa'
          (by omega) (by omega) hw rfl

/-- The parameterized quote conversion equals the spec-phrased conversion, for any
supply, base amount, direction and rounding, on tables of the right length with
non-decreasing prices. -/
theorem gqwp_eq_spec (C : Consts) (m : Market) (supply b : Nat)
    (ty : SwapAmountType) (r : Rounding)
    (hlb : m.bid_prices.length = C.PRICES_LENGTH)
    (hla : m.ask_prices.length = C.PRICES_LENGTH)
    (hmb : ∀ j, j < C.INTERVAL_NUMBER →
      m.bid_prices.getD j 0 ≤ m.bid_prices.getD (j + 1) 0)
    (hma : ∀ j, j < C.INTERVAL_NUMBER →
      m.ask_prices.getD j 0 ≤ m.ask_prices.getD (j + 1) 0) :
    Market.get_quote_amount_with_parameters C m supply b ty r =
      spec_get_quote_amount_with_parameters C m supply b ty r := by
  have core : ∀ (pc : List Nat), pc.length = C.PRICES_LENGTH →
      (∀ j, j < C.INTERVAL_NUMBER → pc.getD j 0 ≤ pc.getD (j + 1) 0) →
      ∀ w qd : Nat,
      (chkU128 (supply * C.SCALE) >>= fun t1 =>
        chkU128 (b * C.SCALE) >>= fun t2 =>
        natDivChk (t1 / C.BASE_PRECISION) w >>= fun iRaw =>
        tryFromU64 iRaw >>= fun i =>
        arrGet pc i >>= fun p0 =>
        gq_loop C pc w r C.PRICES_LENGTH (i + 1) p0 (t1 / C.BASE_PRECISION % w)
            (t2 / C.BASE_PRECISION) 0 >>= fun res =>
        chkU128 (res.1 * C.BASE_PRECISION) >>= fun t3 =>
        div t3 C.SCALE r >>= fun d3 =>
        subChk b d3 >>= fun bs =>
        chkU128 (res.2 * 10 ^ qd) >>= fun t4 =>
        div t4 C.SCALE r >>= fun qs =>
        Except.ok (bs, qs)) =
      (chkU128 (supply * C.SCALE) >>= fun t1 =>
        chkU128 (b * C.SCALE) >>= fun t2 =>
        natDivChk (t1 / C.BASE_PRECISION) w >>= fun iRaw =>
        tryFromU64 iRaw >>= fun start =>
        (if start < C.PRICES_LENGTH then
          spec_quote_walk C pc w r (C.PRICES_LENGTH - (start + 1))
              (t1 / C.BASE_PRECISION) (t2 / C.BASE_PRECISION) 0 >>= fun res =>
          chkU128 (res.1 * C.BASE_PRECISION) >>= fun t3 =>
          div t3 C.SCALE r >>= fun d3 =>
          subChk b d3 >>= fun bs =>
          chkU128 (res.2 * 10 ^ qd) >>= fun t4 =>
          div t4 C.SCALE r >>= fun qs =>
          Except.ok (bs, qs)
        else .error .panicked)) := by
    intro pc hlen hmono w qd
    apply except_bind_congr_ok
    intro t1 ht1
    apply except_bind_congr_ok
    intro t2 ht2
    apply except_bind_congr_ok
    intro iRaw hiRaw
    apply except_bind_congr_ok
    intro i hi
    rw [natDivChk_eq_ok] at hiRaw
    rw [tryFromU64_eq_ok] at hi
    obtain ⟨hw0, hiraw⟩ := hiRaw
    obtain ⟨-, hival⟩ := hi
    subst hival
    subst hiraw
    have hw : 0 < w := Nat.pos_of_ne_zero hw0
    set ns := t1 / C.BASE_PRECISION with hns
    by_cases hipl : ns / w < C.PRICES_LENGTH
    · rw [if_pos hipl]
      rw [arrGet_ok_of_lt pc (ns / w) (by omega), ok_bind]
      have hpos : (ns / w + 1 - 1) * w + ns % w = ns := by
        have h1 : ns / w + 1 - 1 = ns / w := rfl
        rw [h1, Nat.mul_comm]
        exact Nat.div_add_mod ns w
      rw [gq_loop_eq_spec C pc w r hw hlen hmono C.PRICES_LENGTH (ns / w + 1)
        (pc.getD (ns / w) 0) (ns % w) (t2 / C.BASE_PRECISION) 0 (Nat.le_add_right _ _)
        (Nat.le_add_left 1 _) (Nat.mod_lt _ hw) rfl, hpos]
    · rw [if_neg hipl]
      rw [arrGet_oob pc (ns / w) (by omega), error_bind]
  cases ty
  case ExactInput => exact core m.bid_prices hlb hmb m.width_scaled m.quote_token_decimals
  case ExactOutput => exact core m.ask_prices hla hma m.width_scaled m.quote_token_decimals

/-- C2: `get_quote_amount` (and its parameterized core, for any supply and rounding)
computes exactly the spec's algorithm: locate the starting interval by dividing the
normalized supply by the width, accumulate the rounded trapezoidal area for the
portion of each interval the remaining base amount covers until the amount is
consumed or the last interval is passed, return gracefully on exhaustion, and
rescale residual and quote to native precision with the direction's rounding
(`Down` for `ExactInput`, `Up` for `ExactOutput`). -/
theorem C2_quote_walk_follows_spec (C : Consts) (m : Market)
    (hlb : m.bid_prices.length = C.PRICES_LENGTH)
    (hla : m.ask_prices.length = C.PRICES_LENGTH)
    (hmb : ∀ j, j < C.INTERVAL_NUMBER →
      m.bid_prices.getD j 0 ≤ m.bid_prices.getD (j + 1) 0)
    (hma : ∀ j, j < C.INTERVAL_NUMBER →
      m.ask_prices.getD j 0 ≤ m.ask_prices.getD (j + 1) 0) :
    (∀ supply b ty r,
      Market.get_quote_amount_with_parameters C m supply b ty r =
        spec_get_quote_amount_with_parameters C m supply b ty r) ∧
    (∀ b ty, Market.get_quote_amount C m b ty = spec_get_quote_amount C m b ty) := by
  refine ⟨fun supply b ty r => gqwp_eq_spec C m supply b ty r hlb hla hmb hma,
    fun b ty => ?_⟩
  cases ty
  case ExactInput =>
    show subChk _ b >>= _ = subChk _ b >>= _
    apply except_bind_congr_ok
    intro supply hsupply
    exact gqwp_eq_spec C m supply b .ExactInput .Down hlb hla hmb hma
  case ExactOutput =>
    exact gqwp_eq_spec C m m.circulating_supply b .ExactOutput .Up hlb hla hmb hma

/-- Witness for C2 on the concrete market: both directions agree with the spec walk
(and produce `(1, 17)` for selling one unit and `(1, 23)` for buying one unit). -/
theorem C2_quote_walk_follows_spec_witness :
    Market.get_quote_amount exC exMarket 1 .ExactInput =
      spec_get_quote_amount exC exMarket 1 .ExactInput ∧
    Market.get_quote_amount exC exMarket 1 .ExactOutput =
      spec_get_quote_amount exC exMarket 1 .ExactOutput ∧
    Market.get_quote_amount exC exMarket 1 .ExactInput = .ok (1, 17) ∧
    Market.get_quote_amount exC exMarket 1 .ExactOutput = .ok (1, 23) :=
  ⟨(C2_quote_walk_follows_spec exC exMarket (by decide) (by decide) (by decide)
      (by decide)).2 1 .ExactInput,
   (C2_quote_walk_follows_spec exC exMarket (by decide) (by decide) (by decide)
      (by decide)).2 1 .ExactOutput,
   by decide, by decide⟩

/-! ## C4: the downward amount-in walk -/

/-- The downward walk stops at interval index 0. -/
theorem gbai_loop_index_zero (C : Consts) (pc : List Nat) (ws p1 avail ql nb : Nat) :
    gbai_loop C pc ws 0 p1 avail ql nb = .ok (ql, nb) := rfl

/-- The downward walk stops when the quote amount is exhausted. -/
theorem gbai_loop_quote_zero (C : Consts) (pc : List Nat) (ws i p1 avail nb : Nat) :
    gbai_loop C pc ws i p1 avail 0 nb = .ok (0, nb) := by
  cases i with
  | zero => rfl
  | succ i =>
    simp only [gbai_loop]
    rw [if_neg (by omega)]

/-- C4: whenever `get_base_amount_in` returns, its walk started from the
boundary-aligned interval (the interval below the position when the normalized
supply falls exactly on an interval boundary — with the full width available — and
the containing interval with its used portion otherwise), walked the bid curve
downward, and the two returned amounts are rescaled rounding `Up`: the base is the
up-rounded conversion of the accumulated normalized base, and the quote is the
requested quote minus the up-rounded conversion of the unspent residual; moreover
the walk terminates exactly when the quote is exhausted or interval index 0 is
reached. -/
theorem C4_get_base_amount_in (C : Consts) (m : Market) (q bs qs : Nat)
    (h : Market.get_base_amount_in C m q = .ok (bs, qs)) :
    (∃ start avail ql nb,
      (m.circulating_supply * C.SCALE / C.BASE_PRECISION % m.width_scaled = 0 →
        start = m.circulating_supply * C.SCALE / C.BASE_PRECISION / m.width_scaled ∧
        avail = m.width_scaled) ∧
      (m.circulating_supply * C.SCALE / C.BASE_PRECISION % m.width_scaled ≠ 0 →
        start = m.circulating_supply * C.SCALE / C.BASE_PRECISION / m.width_scaled + 1 ∧
        avail = m.circulating_supply * C.SCALE / C.BASE_PRECISION % m.width_scaled) ∧
      gbai_loop C m.bid_prices m.width_scaled start (m.bid_prices.getD start 0) avail
        (q * C.SCALE / 10 ^ m.quote_token_decimals) 0 = .ok (ql, nb) ∧
      bs = rdiv (nb * C.BASE_PRECISION) C.SCALE .Up ∧
      rdiv (ql * 10 ^ m.quote_token_decimals) C.SCALE .Up ≤ q ∧
      qs = q - rdiv (ql * 10 ^ m.quote_token_decimals) C.SCALE .Up) ∧
    (∀ p1 avail ql nb,
      gbai_loop C m.bid_prices m.width_scaled 0 p1 avail ql nb = .ok (ql, nb)) ∧
    (∀ i p1 avail nb,
      gbai_loop C m.bid_prices m.width_scaled i p1 avail 0 nb = .ok (0, nb)) := by
  refine ⟨?_, fun p1 avail ql nb => gbai_loop_index_zero C _ _ p1 avail ql nb,
    fun i p1 avail nb => gbai_loop_quote_zero C _ _ i p1 avail nb⟩
  simp only [Market.get_base_amount_in, except_bind_ok] at h
  obtain ⟨t1, ht1, t2, ht2, iRaw, hiRaw, i0, hi0, p1, hp1, res, hres, t3, ht3, b1, hb1,
    t4, ht4, d4, hd4, q1, hq1, hfin⟩ := h
  rw [chkU128_eq_ok] at ht1 ht2 ht3 ht4
  rw [natDivChk_eq_ok] at hiRaw
  rw [tryFromU64_eq_ok] at hi0
  rw [div_eq_ok] at hb1 hd4
  rw [subChk_eq_ok] at hq1
  rw [arrGet_eq_ok] at hp1
  obtain ⟨-, ht1⟩ := ht1
  subst ht1
  obtain ⟨-, ht2⟩ := ht2
  subst ht2
  obtain ⟨hw0, hiRaw⟩ := hiRaw
  subst hiRaw
  obtain ⟨-, hi0⟩ := hi0
  subst hi0
  obtain ⟨hlt, hp1⟩ := hp1
  subst hp1
  obtain ⟨-, ht3⟩ := ht3
  subst ht3
  obtain ⟨-, -, hb1⟩ := hb1
  subst hb1
  obtain ⟨-, ht4⟩ := ht4
  subst ht4
  obtain ⟨-, -, hd4⟩ := hd4
  subst hd4
  obtain ⟨hle, hq1⟩ := hq1
  subst hq1
  rw [Except.ok.injEq, Prod.mk.injEq] at hfin
  obtain ⟨hbs, hqs⟩ := hfin
  subst hbs
  subst hqs
  by_cases hz : m.circulating_supply * C.SCALE / C.BASE_PRECISION % m.width_scaled = 0
  · rw [if_pos hz] at hres
    exact ⟨m.circulating_supply * C.SCALE / C.BASE_PRECISION / m.width_scaled,
      m.width_scaled, res.1, res.2, fun _ => ⟨rfl, rfl⟩, fun hne => absurd hz hne,
      hres, rfl, hle, rfl⟩
  · rw [if_neg hz] at hres
    exact ⟨m.circulating_supply * C.SCALE / C.BASE_PRECISION / m.width_scaled + 1,
      m.circulating_supply * C.SCALE / C.BASE_PRECISION % m.width_scaled,
      res.1, res.2, fun he => absurd he hz, fun _ => ⟨rfl, rfl⟩,
      hres, rfl, hle, rfl⟩

set_option maxRecDepth 4000 in
/-- Witness for C4: spending 17 quote on the concrete market buys 1 base for exactly
17 quote, and the walk's two stopping conditions hold. -/
theorem C4_get_base_amount_in_witness :
    Market.get_base_amount_in exC exMarket 17 = .ok (1, 17) ∧
    (∀ p1 avail ql nb,
      gbai_loop exC exMarket.bid_prices exMarket.width_scaled 0 p1 avail ql nb =
        .ok (ql, nb)) :=
  ⟨by decide, (C4_get_base_amount_in exC exMarket 17 1 17 (by decide)).2.1⟩

/-! ## C1: machinery — pointwise price bounds and area sums -/

/-- The width-scaled interpolated price is non-decreasing in the position (one step),
up to the top of the curve. -/
theorem phat_step_mono (C : Consts) (pc : List Nat) (w : Nat) (hw : 0 < w)
    (hmono : ∀ j, j < C.INTERVAL_NUMBER → pc.getD j 0 ≤ pc.getD (j + 1) 0)
    (t : Nat) (ht : t + 1 ≤ C.INTERVAL_NUMBER * w) :
    phat pc w t ≤ phat pc w (t + 1) := by
  have hdecomp := Nat.div_add_mod t w
  set k := t / w with hk
  set o := t % w with ho
  have holt : o < w := Nat.mod_lt _ hw
  have hcomm : w * k = k * w := Nat.mul_comm _ _
  have htk : t = k * w + o := by omega
  have hkIN : k < C.INTERVAL_NUMBER := by
    by_contra hge
    push_neg at hge
    have : C.INTERVAL_NUMBER * w ≤ k * w := Nat.mul_le_mul_right _ hge
    omega
  have hp := hmono k hkIN
  rw [htk, show k * w + o + 1 = k * w + (o + 1) from by omega,
    phat_eval pc w k o hw (by omega), phat_eval pc w k (o + 1) hw (by omega)]
  zify [show o ≤ w from by omega, show o + 1 ≤ w from by omega, hp]
  nlinarith [hp, holt]

/-- The width-scaled interpolated price is non-decreasing in the position. -/
theorem phat_mono (C : Consts) (pc : List Nat) (w : Nat) (hw : 0 < w)
    (hmono : ∀ j, j < C.INTERVAL_NUMBER → pc.getD j 0 ≤ pc.getD (j + 1) 0)
    (t : Nat) : ∀ d, t + d ≤ C.INTERVAL_NUMBER * w →
      phat pc w t ≤ phat pc w (t + d) := by
  intro d
  induction d with
  | zero => intro _; exact le_rfl
  | succ d ih =>
    intro hd
    calc phat pc w t ≤ phat pc w (t + d) := ih (by omega)
      _ ≤ phat pc w (t + d + 1) := phat_step_mono C pc w hw hmono (t + d) (by omega)

/-- Pointwise comparison of interpolated prices between two tables dominating each
other entrywise, up to the top of the curve. -/
theorem phat_le_phat (C : Consts) (bid ask : List Nat) (w : Nat) (hw : 0 < w)
    (hba : ∀ i, i < C.PRICES_LENGTH → bid.getD i 0 ≤ ask.getD i 0)
    (t : Nat) (ht : t ≤ C.INTERVAL_NUMBER * w) :
    phat bid w t ≤ phat ask w t := by
  have hdecomp := Nat.div_add_mod t w
  set k := t / w with hk
  set o := t % w with ho
  have holt : o < w := Nat.mod_lt _ hw
  have hcomm : w * k = k * w := Nat.mul_comm _ _
  have htk : t = k * w + o := by omega
  have hkIN : k ≤ C.INTERVAL_NUMBER := by
    by_contra hge
    push_neg at hge
    have : C.INTERVAL_NUMBER * w + w ≤ k * w := by
      have : (C.INTERVAL_NUMBER + 1) * w ≤ k * w := Nat.mul_le_mul_right _ hge
      have he : (C.INTERVAL_NUMBER + 1) * w = C.INTERVAL_NUMBER * w + w := by ring
      omega
    omega
  rcases Nat.lt_or_ge k C.INTERVAL_NUMBER with hlt | hge
  · have h1 := hba k (by have : C.PRICES_LENGTH = C.INTERVAL_NUMBER + 1 := rfl; omega)
    have h2 := hba (k + 1) (by have : C.PRICES_LENGTH = C.INTERVAL_NUMBER + 1 := rfl; omega)
    rw [htk, phat_eval bid w k o hw (by omega), phat_eval ask w k o hw (by omega)]
    exact Nat.add_le_add (Nat.mul_le_mul_right _ h1) (Nat.mul_le_mul_right _ h2)
  · have hkeq : k = C.INTERVAL_NUMBER := by omega
    have ho0 : o = 0 := by
      by_contra hne
      have : k * w + o > C.INTERVAL_NUMBER * w := by
        rw [hkeq]
        omega
      omega
    have h1 := hba k (by have : C.PRICES_LENGTH = C.INTERVAL_NUMBER + 1 := rfl; omega)
    rw [htk, ho0, phat_eval bid w k 0 hw (by omega), phat_eval ask w k 0 hw (by omega)]
    simp only [Nat.mul_zero, Nat.add_zero, Nat.sub_zero]
    exact Nat.mul_le_mul_right _ h1

/-- Shifting a range upward cannot decrease its area (non-decreasing price). -/
theorem areaNum_shift_le (C : Consts) (pc : List Nat) (w : Nat) (hw : 0 < w)
    (hmono : ∀ j, j < C.INTERVAL_NUMBER → pc.getD j 0 ≤ pc.getD (j + 1) 0)
    (x y δ : Nat) (hbound : y + δ ≤ C.INTERVAL_NUMBER * w) :
    areaNum pc w x y ≤ areaNum pc w (x + δ) (y + δ) := by
  unfold areaNum
  rw [Finset.sum_Ico_eq_sum_range, Finset.sum_Ico_eq_sum_range,
    show y + δ - (x + δ) = y - x from by omega]
  apply Finset.sum_le_sum
  intro t ht
  rw [Finset.mem_range] at ht
  have h1 : phat pc w (x + t) ≤ phat pc w (x + t + δ) :=
    phat_mono C pc w hw hmono (x + t) δ (by omega)
  have h2 : phat pc w (x + t + 1) ≤ phat pc w (x + t + 1 + δ) :=
    phat_mono C pc w hw hmono (x + t + 1) δ (by omega)
  have he1 : x + δ + t = x + t + δ := by omega
  rw [he1]
  have he3 : x + t + 1 + δ = x + t + δ + 1 := by omega
  rw [he3] at h2
  omega

/-- Entrywise larger price tables give larger areas. -/
theorem areaNum_le_areaNum (C : Consts) (bid ask : List Nat) (w : Nat) (hw : 0 < w)
    (hba : ∀ i, i < C.PRICES_LENGTH → bid.getD i 0 ≤ ask.getD i 0)
    (x y : Nat) (hbound : y ≤ C.INTERVAL_NUMBER * w) :
    areaNum bid w x y ≤ areaNum ask w x y := by
  unfold areaNum
  apply Finset.sum_le_sum
  intro t ht
  rw [Finset.mem_Ico] at ht
  have h1 := phat_le_phat C bid ask w hw hba t (by omega)
  have h2 := phat_le_phat C bid ask w hw hba (t + 1) (by omega)
  omega

/-- A prefix of a range has at most the full range's area. -/
theorem areaNum_prefix_le (pc : List Nat) (w x y z : Nat) (hyz : y ≤ z) :
    areaNum pc w x y ≤ areaNum pc w x z := by
  unfold areaNum
  apply Finset.sum_le_sum_of_subset
  exact Finset.Ico_subset_Ico le_rfl hyz

/-- Consecutive ranges add. -/
theorem areaNum_append (pc : List Nat) (w x y z : Nat) (hxy : x ≤ y) (hyz : y ≤ z) :
    areaNum pc w x y + areaNum pc w y z = areaNum pc w x z :=
  Finset.sum_Ico_consecutive _ hxy hyz

/-- The exact area of a chunk of width `d` starting at offset `u` inside interval `k`
equals the code's `delta_base * factor` product. -/
theorem areaNum_chunk (pc : List Nat) (w k u : Nat) (hw : 0 < w)
    (hp : pc.getD k 0 ≤ pc.getD (k + 1) 0) :
    ∀ d, u + d ≤ w →
      areaNum pc w (k * w + u) (k * w + u + d) =
        d * ((pc.getD (k + 1) 0 - pc.getD k 0) * (d + 2 * u) + 2 * pc.getD k 0 * w) := by
  intro d
  induction d with
  | zero => intro _; simp [areaNum]
  | succ d ih =>
    intro hud
    have hstep : areaNum pc w (k * w + u) (k * w + u + (d + 1)) =
        areaNum pc w (k * w + u) (k * w + u + d) +
          (phat pc w (k * w + u + d) + phat pc w (k * w + u + d + 1)) := by
      unfold areaNum
      rw [show k * w + u + (d + 1) = (k * w + u + d) + 1 from by omega,
        Finset.sum_Ico_succ_top (by omega)]
    rw [hstep, ih (by omega),
      show k * w + u + d = k * w + (u + d) from by omega,
      show k * w + (u + d) + 1 = k * w + (u + d + 1) from by omega,
      phat_eval pc w k (u + d) hw (by omega),
      phat_eval pc w k (u + d + 1) hw (by omega)]
    zify [hp, show u + d ≤ w from by omega, show u + d + 1 ≤ w from by omega]
    ring

/-- The empty range has zero area. -/
theorem areaNum_empty (pc : List Nat) (w x : Nat) : areaNum pc w x x = 0 := by
  simp [areaNum]

/-- With `Down` rounding, the walk's accumulated quote (scaled by `2*SCALE*w`) is at
most the exact area over the consumed range, and the residual never grows. -/
theorem gq_loop_down_le (C : Consts) (pc : List Nat) (w : Nat) (hw : 0 < w) :
    ∀ fuel i p0 used bl qa bl' qa',
      gq_loop C pc w .Down fuel i p0 used bl qa = .ok (bl', qa') →
      1 ≤ i → p0 = pc.getD (i - 1) 0 → used < w →
      bl' ≤ bl ∧
      qa' * (2 * C.SCALE * w) ≤
        qa * (2 * C.SCALE * w) +
          areaNum pc w ((i - 1) * w + used) ((i - 1) * w + used + (bl - bl')) := by
  intro fuel
  induction fuel with
  | zero =>
    intro i p0 used bl qa bl' qa' h hi hp0 hused
    rw [show gq_loop C pc w .Down 0 i p0 used bl qa = .ok (bl, qa) from rfl,
      Except.ok.injEq, Prod.mk.injEq] at h
    obtain ⟨h1, h2⟩ := h
    subst h1
    subst h2
    rw [show bl - bl = 0 from by omega, Nat.add_zero, areaNum_empty]
    omega
  | succ fuel ih =>
    intro i p0 used bl qa bl' qa' h hi hp0 hused
    subst hp0
    by_cases hcond : bl > 0 ∧ i < C.PRICES_LENGTH
    case neg =>
      simp only [gq_loop] at h
      rw [if_neg hcond, Except.ok.injEq, Prod.mk.injEq] at h
      obtain ⟨h1, h2⟩ := h
      subst h1
      subst h2
      rw [show bl - bl = 0 from by omega, Nat.add_zero, areaNum_empty]
      omega
    case pos =>
      simp only [gq_loop] at h
      rw [if_pos hcond] at h
      simp only [except_bind_ok] at h
      obtain ⟨p1, hp1, pd, hpd, factor, hfac, den, hden, dq, hdq, qa2, hqa2, hrec⟩ := h
      rw [arrGet_eq_ok] at hp1
      obtain ⟨hilt, hp1⟩ := hp1
      subst hp1
      rw [subChk_eq_ok] at hpd
      obtain ⟨hple, hpd⟩ := hpd
      subst hpd
      rw [chkU128_eq_ok] at hfac hden hqa2
      obtain ⟨-, hfac⟩ := hfac
      subst hfac
      obtain ⟨-, hden⟩ := hden
      subst hden
      rw [okOrMathError_eq_ok, mul_div_eq_some] at hdq
      obtain ⟨hD0, -, hdq⟩ := hdq
      subst hdq
      obtain ⟨-, hqa2⟩ := hqa2
      subst hqa2
      have hih := ih (i + 1) (pc.getD i 0) 0 (bl - min bl (w - used)) _ bl' qa' hrec
        (by omega) rfl hw
      simp only [Nat.add_sub_cancel, Nat.add_zero] at hih
      obtain ⟨hble, hqa'⟩ := hih
      have hminle : min bl (w - used) ≤ bl := Nat.min_le_left _ _
      have hminw : min bl (w - used) ≤ w - used := Nat.min_le_right _ _
      refine ⟨by omega, ?_⟩
      have hchunk : areaNum pc w ((i - 1) * w + used)
          ((i - 1) * w + used + min bl (w - used)) =
          min bl (w - used) *
            ((pc.getD i 0 - pc.getD (i - 1) 0) * (min bl (w - used) + 2 * used) +
              2 * pc.getD (i - 1) 0 * w) := by
        have h2 := areaNum_chunk pc w (i - 1) used hw
          (by rw [Nat.sub_add_cancel hi]; exact hple) (min bl (w - used)) (by omega)
        rwa [Nat.sub_add_cancel hi] at h2
      have hdqle : rdiv (min bl (w - used) *
          ((pc.getD i 0 - pc.getD (i - 1) 0) * (min bl (w - used) + 2 * used) +
            2 * pc.getD (i - 1) 0 * w)) (2 * C.SCALE * w) .Down * (2 * C.SCALE * w) ≤
          min bl (w - used) *
            ((pc.getD i 0 - pc.getD (i - 1) 0) * (min bl (w - used) + 2 * used) +
              2 * pc.getD (i - 1) 0 * w) := rdiv_down_mul_le _ _
      have hdistrib : ∀ a b c : Nat, (a + b) * c = a * c + b * c := fun a b c => by ring
      rcases Nat.eq_zero_or_pos (bl - min bl (w - used)) with hbd | hbd
      · have hbl0 : bl' = 0 := by omega
        have hdbbl : min bl (w - used) = bl := by omega
        subst hbl0
        rw [show i * w + (bl - min bl (w - used) - 0) = i * w from by omega,
          areaNum_empty, hdistrib] at hqa'
        rw [show (i - 1) * w + used + (bl - 0) =
          (i - 1) * w + used + min bl (w - used) from by omega, hchunk]
        omega
      · have hdbw : min bl (w - used) = w - used := by omega
        have hiw : (i - 1) * w + w = i * w := by
          have h1 : (i - 1 + 1) * w = (i - 1) * w + w := by ring
          rw [Nat.sub_add_cancel hi] at h1
          omega
        have hadj : (i - 1) * w + used + min bl (w - used) = i * w := by
          rw [hdbw]
          omega
        have happ2 := areaNum_append pc w ((i - 1) * w + used)
          ((i - 1) * w + used + min bl (w - used)) ((i - 1) * w + used + (bl - bl'))
          (by omega) (by omega)
        rw [hchunk] at happ2
        rw [hdistrib, show i * w + (bl - min bl (w - used) - bl') =
          (i - 1) * w + used + (bl - bl') from by omega, ← hadj] at hqa'
        omega

/-- With `Up` rounding, the walk's accumulated quote (scaled by `2*SCALE*w`) is at
least the exact area over the consumed range. -/
theorem gq_loop_up_ge (C : Consts) (pc : List Nat) (w : Nat) (hw : 0 < w)
    (hS : 0 < C.SCALE) :
    ∀ fuel i p0 used bl qa bl' qa',
      gq_loop C pc w .Up fuel i p0 used bl qa = .ok (bl', qa') →
      1 ≤ i → p0 = pc.getD (i - 1) 0 → used < w →
      bl' ≤ bl ∧
      qa * (2 * C.SCALE * w) +
          areaNum pc w ((i - 1) * w + used) ((i - 1) * w + used + (bl - bl')) ≤
        qa' * (2 * C.SCALE * w) := by
  intro fuel
  induction fuel with
  | zero =>
    intro i p0 used bl qa bl' qa' h hi hp0 hused
    rw [show gq_loop C pc w .Up 0 i p0 used bl qa = .ok (bl, qa) from rfl,
      Except.ok.injEq, Prod.mk.injEq] at h
    obtain ⟨h1, h2⟩ := h
    subst h1
    subst h2
    rw [show bl - bl = 0 from by omega, Nat.add_zero, areaNum_empty]
    omega
  | succ fuel ih =>
    intro i p0 used bl qa bl' qa' h hi hp0 hused
    subst hp0
    by_cases hcond : bl > 0 ∧ i < C.PRICES_LENGTH
    case neg =>
      simp only [gq_loop] at h
      rw [if_neg hcond, Except.ok.injEq, Prod.mk.injEq] at h
      obtain ⟨h1, h2⟩ := h
      subst h1
      subst h2
      rw [show bl - bl = 0 from by omega, Nat.add_zero, areaNum_empty]
      omega
    case pos =>
      simp only [gq_loop] at h
      rw [if_pos hcond] at h
      simp only [except_bind_ok] at h
      obtain ⟨p1, hp1, pd, hpd, factor, hfac, den, hden, dq, hdq, qa2, hqa2, hrec⟩ := h
      rw [arrGet_eq_ok] at hp1
      obtain ⟨hilt, hp1⟩ := hp1
      subst hp1
      rw [subChk_eq_ok] at hpd
      obtain ⟨hple, hpd⟩ := hpd
      subst hpd
      rw [chkU128_eq_ok] at hfac hden hqa2
      obtain ⟨-, hfac⟩ := hfac
      subst hfac
      obtain ⟨-, hden⟩ := hden
      subst hden
      rw [okOrMathError_eq_ok, mul_div_eq_some] at hdq
      obtain ⟨hD0, -, hdq⟩ := hdq
      subst hdq
      obtain ⟨-, hqa2⟩ := hqa2
      subst hqa2
      have hih := ih (i + 1) (pc.getD i 0) 0 (bl - min bl (w - used)) _ bl' qa' hrec
        (by omega) rfl hw
      simp only [Nat.add_sub_cancel, Nat.add_zero] at hih
      obtain ⟨hble, hqa'⟩ := hih
      have hminle : min bl (w - used) ≤ bl := Nat.min_le_left _ _
      have hminw : min bl (w - used) ≤ w - used := Nat.min_le_right _ _
      refine ⟨by omega, ?_⟩
      have hchunk : areaNum pc w ((i - 1) * w + used)
          ((i - 1) * w + used + min bl (w - used)) =
          min bl (w - used) *
            ((pc.getD i 0 - pc.getD (i - 1) 0) * (min bl (w - used) + 2 * used) +
              2 * pc.getD (i - 1) 0 * w) := by
        have h2 := areaNum_chunk pc w (i - 1) used hw
          (by rw [Nat.sub_add_cancel hi]; exact hple) (min bl (w - used)) (by omega)
        rwa [Nat.sub_add_cancel hi] at h2
      have hdqge : min bl (w - used) *
            ((pc.getD i 0 - pc.getD (i - 1) 0) * (min bl (w - used) + 2 * used) +
              2 * pc.getD (i - 1) 0 * w) ≤
          rdiv (min bl (w - used) *
            ((pc.getD i 0 - pc.getD (i - 1) 0) * (min bl (w - used) + 2 * used) +
              2 * pc.getD (i - 1) 0 * w)) (2 * C.SCALE * w) .Up * (2 * C.SCALE * w) :=
        le_rdiv_up_mul _ _ (by positivity)
      have hdistrib : ∀ a b c : Nat, (a + b) * c = a * c + b * c := fun a b c => by ring
      rcases Nat.eq_zero_or_pos (bl - min bl (w - used)) with hbd | hbd
      · have hbl0 : bl' = 0 := by omega
        have hdbbl : min bl (w - used) = bl := by omega
        subst hbl0
        rw [show i * w + (bl - min bl (w - used) - 0) = i * w from by omega,
          areaNum_empty, hdistrib] at hqa'
        rw [show (i - 1) * w + used + (bl - 0) =
          (i - 1) * w + used + min bl (w - used) from by omega, hchunk]
        omega
      · have hdbw : min bl (w - used) = w - used := by omega
        have hiw : (i - 1) * w + w = i * w := by
          have h1 : (i - 1 + 1) * w = (i - 1) * w + w := by ring
          rw [Nat.sub_add_cancel hi] at h1
          omega
        have hadj : (i - 1) * w + used + min bl (w - used) = i * w := by
          rw [hdbw]
          omega
        have happ2 := areaNum_append pc w ((i - 1) * w + used)
          ((i - 1) * w + used + min bl (w - used)) ((i - 1) * w + used + (bl - bl'))
          (by omega) (by omega)
        rw [hchunk] at happ2
        rw [hdistrib, show i * w + (bl - min bl (w - used) - bl') =
          (i - 1) * w + used + (bl - bl') from by omega, ← hadj] at hqa'
        omega

/-- The consumed range of a walk stays within the curve: when anything is consumed,
the final position is at most the curve's top `INTERVAL_NUMBER * w`. -/
theorem gq_loop_pos_bound (C : Consts) (pc : List Nat) (w : Nat) (r : Rounding)
    (hw : 0 < w) :
    ∀ fuel i p0 used bl qa bl' qa',
      gq_loop C pc w r fuel i p0 used bl qa = .ok (bl', qa') →
      1 ≤ i → used < w →
      bl' ≤ bl ∧ (bl' < bl →
        (i - 1) * w + used + (bl - bl') ≤ C.INTERVAL_NUMBER * w) := by
  intro fuel
  induction fuel with
  | zero =>
    intro i p0 used bl qa bl' qa' h hi hused
    rw [show gq_loop C pc w r 0 i p0 used bl qa = .ok (bl, qa) from rfl,
      Except.ok.injEq, Prod.mk.injEq] at h
    obtain ⟨h1, -⟩ := h
    subst h1
    exact ⟨le_rfl, fun hlt => absurd hlt (by omega)⟩
  | succ fuel ih =>
    intro i p0 used bl qa bl' qa' h hi hused
    by_cases hcond : bl > 0 ∧ i < C.PRICES_LENGTH
    case neg =>
      simp only [gq_loop] at h
      rw [if_neg hcond, Except.ok.injEq, Prod.mk.injEq] at h
      obtain ⟨h1, -⟩ := h
      subst h1
      exact ⟨le_rfl, fun hlt => absurd hlt (by omega)⟩
    case pos =>
      simp only [gq_loop] at h
      rw [if_pos hcond] at h
      simp only [except_bind_ok] at h
      obtain ⟨p1, hp1, pd, hpd, factor, hfac, den, hden, dq, hdq, qa2, hqa2, hrec⟩ := h
      have hih := ih (i + 1) p1 0 (bl - min bl (w - used)) qa2 bl' qa' hrec
        (by omega) hw
      simp only [Nat.add_sub_cancel, Nat.add_zero] at hih
      obtain ⟨hble, hbound⟩ := hih
      have hminle : min bl (w - used) ≤ bl := Nat.min_le_left _ _
      have hminw : min bl (w - used) ≤ w - used := Nat.min_le_right _ _
      have hiPL : i ≤ C.INTERVAL_NUMBER := by
        have : C.PRICES_LENGTH = C.INTERVAL_NUMBER + 1 := rfl
        omega
      have hiw : (i - 1) * w + w = i * w := by
        have h1 : (i - 1 + 1) * w = (i - 1) * w + w := by ring
        rw [Nat.sub_add_cancel hi] at h1
        omega
      have hiwIN : i * w ≤ C.INTERVAL_NUMBER * w := Nat.mul_le_mul_right _ hiPL
      refine ⟨by omega, fun hlt => ?_⟩
      rcases Nat.eq_zero_or_pos (bl - min bl (w - used)) with hbd | hbd
      · have hdbbl : min bl (w - used) = bl := by omega
        omega
      · rcases Nat.lt_or_ge bl' (bl - min bl (w - used)) with hlt2 | hge
        · have hb := hbound hlt2
          have hdbw : min bl (w - used) = w - used := by omega
          omega
        · have hbl' : bl' = bl - min bl (w - used) := by omega
          omega

/-- The halves of a split numerator divide to at most the whole's quotient. -/
theorem nat_div_add_div_le (a b d : Nat) : a / d + b / d ≤ (a + b) / d := by
  rcases Nat.eq_zero_or_pos d with hd | hd
  · simp [hd]
  · rw [Nat.le_div_iff_mul_le hd, Nat.add_mul]
    exact Nat.add_le_add (Nat.div_mul_le_self a d) (Nat.div_mul_le_self b d)

/-- A zero up-rounded quotient forces a zero numerator (positive divisor). -/
theorem rdiv_up_eq_zero (n d : Nat) (hd : 0 < d) (h : rdiv n d .Up = 0) : n = 0 := by
  have h1 := le_rdiv_up_mul n d hd
  rw [h] at h1
  simpa using h1

/-- Selling `b` base units leaves a buy-back budget that covers the normalized
amount consumed: the residual `b - rdiv(r1*BP, S, Down)` renormalizes to at least
`b*S/BP - r1`. -/
theorem consumed_le (S BP b r1 : Nat) (hBP : 0 < BP) (hr : r1 ≤ b * S / BP) :
    b * S / BP - r1 ≤ (b - rdiv (r1 * BP) S .Down) * S / BP := by
  have hA : rdiv (r1 * BP) S .Down * S ≤ r1 * BP := rdiv_down_mul_le (r1 * BP) S
  have hB : b * S / BP * BP ≤ b * S := Nat.div_mul_le_self (b * S) BP
  have hr1 : r1 * BP ≤ b * S / BP * BP := Nat.mul_le_mul_right _ hr
  rw [Nat.le_div_iff_mul_le hBP, Nat.sub_mul, Nat.sub_mul]
  omega

/-- The area consumed by the sell leg is dominated by the area available to the
buy-back leg: shift the range up to the buy-back start, raise bid to ask, and
extend the length. -/
theorem area_chain (C : Consts) (bid ask : List Nat) (w : Nat) (hw : 0 < w)
    (hmb : ∀ i, i < C.INTERVAL_NUMBER → bid.getD i 0 < bid.getD (i + 1) 0)
    (hba : ∀ i, i < C.PRICES_LENGTH → bid.getD i 0 ≤ ask.getD i 0)
    (ns ns2 c1 c2 : Nat) (hle : ns ≤ ns2) (hc : c1 ≤ c2)
    (hbound : ns2 + c2 ≤ C.INTERVAL_NUMBER * w) :
    areaNum bid w ns (ns + c1) ≤ areaNum ask w ns2 (ns2 + c2) := by
  have hmono : ∀ j, j < C.INTERVAL_NUMBER → bid.getD j 0 ≤ bid.getD (j + 1) 0 :=
    fun j hj => Nat.le_of_lt (hmb j hj)
  have h1 := areaNum_shift_le C bid w hw hmono ns (ns + c1) (ns2 - ns) (by omega)
  rw [show ns + (ns2 - ns) = ns2 from by omega,
    show ns + c1 + (ns2 - ns) = ns2 + c1 from by omega] at h1
  have h2 := areaNum_le_areaNum C bid ask w hw hba ns2 (ns2 + c1) (by omega)
  have h3 := areaNum_prefix_le ask w ns2 (ns2 + c1) (ns2 + c2) (by omega)
  omega

/-- C1 (amended): on a well-formed market, selling `b ≤ circulatingSupply` base for
`q1` quote (`ExactInput`, rounding Down on the bid curve) and then buying back the
swapped base amount (`ExactOutput`, rounding Up on the ask curve) costs at least as
much as the sale paid, `q1 ≤ q2`, provided the buy-back consumes its full base
amount.  Rounding never creates free value for the caller; the original claim's
`q2 ≤ q1` has the inequality backwards. -/
theorem C1_round_trip_quote (C : Consts) (m : Market) (b bs q1 bs2 q2 : Nat)
    (hwf : MarketWF C m) (hb : b ≤ m.circulating_supply)
    (h1 : Market.get_quote_amount C m b .ExactInput = .ok (bs, q1))
    (h2 : Market.get_quote_amount C m bs .ExactOutput = .ok (bs2, q2))
    (hfull : bs2 = bs) :
    q1 ≤ q2 := by
  obtain ⟨hS, hBP, hw, ⟨hlb, hmb⟩, ⟨hla, hma⟩, hba, hrt⟩ := hwf
  simp only [Market.get_quote_amount, Market.get_quote_amount_with_parameters,
    except_bind_ok] at h1
  obtain ⟨s1, hs1, t1, ht1, t2, ht2, iRaw, hiRaw, i1, hi1, p0, hp0, res1, hres1,
    t3, ht3, d3, hd3, bsv, hbsv, t4, ht4, q1v, hq1v, hfin1⟩ := h1
  rw [subChk_eq_ok] at hs1
  obtain ⟨-, hs1⟩ := hs1
  subst hs1
  rw [chkU128_eq_ok] at ht1
  obtain ⟨-, ht1⟩ := ht1
  subst ht1
  rw [chkU128_eq_ok] at ht2
  obtain ⟨-, ht2⟩ := ht2
  subst ht2
  rw [natDivChk_eq_ok] at hiRaw
  obtain ⟨-, hiRaw⟩ := hiRaw
  subst hiRaw
  rw [tryFromU64_eq_ok] at hi1
  obtain ⟨-, hi1⟩ := hi1
  subst hi1
  rw [arrGet_eq_ok] at hp0
  obtain ⟨-, hp0⟩ := hp0
  subst hp0
  obtain ⟨r1, a1⟩ := res1
  dsimp only at ht3 ht4
  rw [chkU128_eq_ok] at ht3
  obtain ⟨-, ht3⟩ := ht3
  subst ht3
  rw [div_eq_ok] at hd3
  obtain ⟨-, -, hd3⟩ := hd3
  subst hd3
  rw [subChk_eq_ok] at hbsv
  obtain ⟨hd3le, hbsv⟩ := hbsv
  rw [chkU128_eq_ok] at ht4
  obtain ⟨-, ht4⟩ := ht4
  subst ht4
  rw [div_eq_ok] at hq1v
  obtain ⟨-, -, hq1v⟩ := hq1v
  rw [Except.ok.injEq, Prod.mk.injEq] at hfin1
  obtain ⟨hbseq0, hq1eq⟩ := hfin1
  simp only [Market.get_quote_amount, Market.get_quote_amount_with_parameters,
    except_bind_ok] at h2
  obtain ⟨u1, hu1, u2, hu2, jRaw, hjRaw, j1, hj1, p0b, hp0b, res2, hres2,
    u3, hu3, e3, he3, bs2v, hbs2v, u4, hu4, q2v, hq2v, hfin2⟩ := h2
  rw [chkU128_eq_ok] at hu1
  obtain ⟨-, hu1⟩ := hu1
  subst hu1
  rw [chkU128_eq_ok] at hu2
  obtain ⟨-, hu2⟩ := hu2
  subst hu2
  rw [natDivChk_eq_ok] at hjRaw
  obtain ⟨-, hjRaw⟩ := hjRaw
  subst hjRaw
  rw [tryFromU64_eq_ok] at hj1
  obtain ⟨-, hj1⟩ := hj1
  subst hj1
  rw [arrGet_eq_ok] at hp0b
  obtain ⟨-, hp0b⟩ := hp0b
  subst hp0b
  obtain ⟨r2, a2⟩ := res2
  dsimp only at hu3 hu4
  rw [chkU128_eq_ok] at hu3
  obtain ⟨-, hu3⟩ := hu3
  subst hu3
  rw [div_eq_ok] at he3
  obtain ⟨-, -, he3⟩ := he3
  subst he3
  rw [subChk_eq_ok] at hbs2v
  obtain ⟨he3le, hbs2v⟩ := hbs2v
  rw [chkU128_eq_ok] at hu4
  obtain ⟨-, hu4⟩ := hu4
  subst hu4
  rw [div_eq_ok] at hq2v
  obtain ⟨-, -, hq2v⟩ := hq2v
  rw [Except.ok.injEq, Prod.mk.injEq] at hfin2
  obtain ⟨hbs2eq, hq2eq⟩ := hfin2
  have hdown := gq_loop_down_le C m.bid_prices m.width_scaled hw C.PRICES_LENGTH
    ((m.circulating_supply - b) * C.SCALE / C.BASE_PRECISION / m.width_scaled + 1)
    (m.bid_prices.getD
      ((m.circulating_supply - b) * C.SCALE / C.BASE_PRECISION / m.width_scaled) 0)
    ((m.circulating_supply - b) * C.SCALE / C.BASE_PRECISION % m.width_scaled)
    (b * C.SCALE / C.BASE_PRECISION) 0 r1 a1 hres1
    (Nat.le_add_left 1 _) (by rw [Nat.add_sub_cancel]) (Nat.mod_lt _ hw)
  simp only [Nat.add_sub_cancel, Nat.zero_mul, Nat.zero_add] at hdown
  obtain ⟨hr1le, hdown⟩ := hdown
  have hnseq : (m.circulating_supply - b) * C.SCALE / C.BASE_PRECISION / m.width_scaled
        * m.width_scaled
      + (m.circulating_supply - b) * C.SCALE / C.BASE_PRECISION % m.width_scaled
      = (m.circulating_supply - b) * C.SCALE / C.BASE_PRECISION := by
    have h := Nat.div_add_mod
      ((m.circulating_supply - b) * C.SCALE / C.BASE_PRECISION) m.width_scaled
    have hc : m.width_scaled
          * ((m.circulating_supply - b) * C.SCALE / C.BASE_PRECISION / m.width_scaled)
        = (m.circulating_supply - b) * C.SCALE / C.BASE_PRECISION / m.width_scaled
          * m.width_scaled := Nat.mul_comm _ _
    omega
  rw [hnseq] at hdown
  have hup := gq_loop_up_ge C m.ask_prices m.width_scaled hw hS C.PRICES_LENGTH
    (m.circulating_supply * C.SCALE / C.BASE_PRECISION / m.width_scaled + 1)
    (m.ask_prices.getD
      (m.circulating_supply * C.SCALE / C.BASE_PRECISION / m.width_scaled) 0)
    (m.circulating_supply * C.SCALE / C.BASE_PRECISION % m.width_scaled)
    (bs * C.SCALE / C.BASE_PRECISION) 0 r2 a2 hres2
    (Nat.le_add_left 1 _) (by rw [Nat.add_sub_cancel]) (Nat.mod_lt _ hw)
  simp only [Nat.add_sub_cancel, Nat.zero_mul, Nat.zero_add] at hup
  obtain ⟨-, hup⟩ := hup
  have hpos := gq_loop_pos_bound C m.ask_prices m.width_scaled .Up hw C.PRICES_LENGTH
    (m.circulating_supply * C.SCALE / C.BASE_PRECISION / m.width_scaled + 1)
    (m.ask_prices.getD
      (m.circulating_supply * C.SCALE / C.BASE_PRECISION / m.width_scaled) 0)
    (m.circulating_supply * C.SCALE / C.BASE_PRECISION % m.width_scaled)
    (bs * C.SCALE / C.BASE_PRECISION) 0 r2 a2 hres2
    (Nat.le_add_left 1 _) (Nat.mod_lt _ hw)
  simp only [Nat.add_sub_cancel] at hpos
  obtain ⟨-, hposb⟩ := hpos
  have hnseq2 : m.circulating_supply * C.SCALE / C.BASE_PRECISION / m.width_scaled
        * m.width_scaled
      + m.circulating_supply * C.SCALE / C.BASE_PRECISION % m.width_scaled
      = m.circulating_supply * C.SCALE / C.BASE_PRECISION := by
    have h := Nat.div_add_mod
      (m.circulating_supply * C.SCALE / C.BASE_PRECISION) m.width_scaled
    have hc : m.width_scaled
          * (m.circulating_supply * C.SCALE / C.BASE_PRECISION / m.width_scaled)
        = m.circulating_supply * C.SCALE / C.BASE_PRECISION / m.width_scaled
          * m.width_scaled := Nat.mul_comm _ _
    omega
  rw [hnseq2] at hup hposb
  have he30 : rdiv (r2 * C.BASE_PRECISION) C.SCALE .Up = 0 := by omega
  have hr2BP : r2 * C.BASE_PRECISION = 0 := rdiv_up_eq_zero _ _ hS he30
  have hr2 : r2 = 0 := by
    rcases Nat.mul_eq_zero.mp hr2BP with h | h
    · exact h
    · omega
  have hbseq : bs = b - rdiv (r1 * C.BASE_PRECISION) C.SCALE .Down := by omega
  have hcon := consumed_le C.SCALE C.BASE_PRECISION b r1 hBP hr1le
  rw [← hbseq] at hcon
  have hsum := nat_div_add_div_le ((m.circulating_supply - b) * C.SCALE) (b * C.SCALE)
    C.BASE_PRECISION
  rw [← Nat.add_mul, Nat.sub_add_cancel hb] at hsum
  have hD : 0 < 2 * C.SCALE * m.width_scaled :=
    Nat.mul_pos (Nat.mul_pos (by omega) hS) hw
  have ha : a1 ≤ a2 := by
    rcases Nat.eq_zero_or_pos (bs * C.SCALE / C.BASE_PRECISION - r2) with hc2 | hc2
    · have hc1 : b * C.SCALE / C.BASE_PRECISION - r1 = 0 := by omega
      rw [hc1, Nat.add_zero, areaNum_empty] at hdown
      have h0 : a1 * (2 * C.SCALE * m.width_scaled) = 0 := by omega
      rcases Nat.mul_eq_zero.mp h0 with h | h
      · omega
      · omega
    · have hbound := hposb (by omega)
      have hchain := area_chain C m.bid_prices m.ask_prices m.width_scaled hw hmb hba
        ((m.circulating_supply - b) * C.SCALE / C.BASE_PRECISION)
        (m.circulating_supply * C.SCALE / C.BASE_PRECISION)
        (b * C.SCALE / C.BASE_PRECISION - r1)
        (bs * C.SCALE / C.BASE_PRECISION - r2)
        (by omega) (by omega) hbound
      exact Nat.le_of_mul_le_mul_right (by omega) hD
  have hq1' : q1 = rdiv (a1 * 10 ^ m.quote_token_decimals) C.SCALE .Down := by omega
  have hq2' : q2 = rdiv (a2 * 10 ^ m.quote_token_decimals) C.SCALE .Up := by omega
  rw [hq1', hq2']
  exact (rdiv_le_rdiv _ _ _ _ (Nat.mul_le_mul_right _ ha)).trans (rdiv_down_le_up _ _)

/-- C1 (original statement refuted): on the well-formed market `exMarket` (equal
bid/ask tables `[10, 20, 30]`, width 200, circulating supply 2), selling 1 base
yields `(1, 17)` and buying the swapped base amount 1 back yields `(1, 23)`, so the
claimed `q2 ≤ q1` fails: Down versus Up rounding makes the buy-back strictly more
expensive, not cheaper. -/
theorem C1_counterexample :
    MarketWF exC exMarket ∧
    1 ≤ Market.circulating_supply exMarket ∧
    Market.get_quote_amount exC exMarket 1 .ExactInput = .ok (1, 17) ∧
    Market.get_quote_amount exC exMarket 1 .ExactOutput = .ok (1, 23) ∧
    ¬ (23 ≤ 17) :=
  ⟨by decide, by decide, by decide, by decide, by decide⟩

/-- C1 witness: the amended round-trip bound instantiated on `exMarket`, where the
sale pays 17 and the full buy-back costs 23. -/
theorem C1_round_trip_quote_witness :
    MarketWF exC exMarket ∧ (1 : Nat) ≤ Market.circulating_supply exMarket ∧
    (17 : Nat) ≤ 23 :=
  ⟨by decide, by decide,
    C1_round_trip_quote exC exMarket 1 1 17 1 23 (by decide) (by decide)
      (by decide) (by decide) rfl⟩

end TokenMill
